import Mathlib

/-!
Verification of the core of the `synapse` code-intelligence engine.

The development shallowly embeds the Go source of the repository:

* `internal/rag/rag.go`        — hybrid retrieval (`HybridRetrieve`);
* `internal/chunker/chunker.go`— capture dedup (`dedup`) and oversized
  splitting (`splitOversized`);
* `internal/walker/walker.go`  — the directory walker (`Walk`,
  `matchesIgnore`, `loadIgnorePatterns`);
* `internal/store/sqlite.go`   — the store operations used by the pipeline
  (`GetFileHash`, `UpsertFile`, `InsertChunks`, `InsertEmbeddings`,
  `GetMeta`, `SetMeta`, `DeleteAllChunks`), with SQLite's transactional
  behaviour made explicit (an operation either returns a new store state
  or an error leaving the state unchanged);
* `internal/index/pipeline.go` and `internal/index/indexer.go` — the
  staged pipeline (`runPipeline`) collapsed to its sequential semantics,
  and the model-change protocol of `Indexer.Index`.

External collaborators (SHA-256, the embedding service, tree-sitter, the
shell-glob matcher `filepath.Match`) are abstracted as function parameters:
the code under verification never inspects their internals, only their
results.  Machine integers (`int64`, `uint32`) are modelled as `Int`/`Nat`;
none of the verified code paths can overflow them (byte offsets and ids are
bounded by file sizes and row counts).
-/

/- ===================================================================
   Store data model (internal/store/store.go)
   =================================================================== -/

/-- `store.Chunk`: a parsed code chunk row. -/
structure Chunk where
  id : Int
  fileId : Int
  name : String
  kind : String
  startLine : Int
  endLine : Int
  content : String
  metadata : String
deriving Repr, DecidableEq

/-- `store.SearchResult`: a chunk with its similarity score and file path.
`distance` is a `float64` in Go; it is carried opaquely (never computed on). -/
structure SearchResult where
  chunk : Chunk
  filePath : String
  language : String
  distance : Float

/- ===================================================================
   Hybrid retrieval (internal/rag/rag.go, HybridRetrieve)
   =================================================================== -/

/-- One pass of the merge loops of `HybridRetrieve`: iterate the results in
order, appending each result whose chunk id is not in `seen`, recording every
appended id in `seen`.  Returns the kept results and the final seen set
(the Go code uses a `map[int64]bool`; the model uses a list of ids). -/
def filterSeen : List Int → List SearchResult → List SearchResult × List Int
  | seen, [] => ([], seen)
  | seen, r :: rest =>
    if r.chunk.id ∈ seen then filterSeen seen rest
    else ((r :: (filterSeen (r.chunk.id :: seen) rest).1),
          (filterSeen (r.chunk.id :: seen) rest).2)

/-- `if ftsErr != nil { ftsResults = nil }`: a failed lexical search is
treated as an empty lexical result list. -/
def recoverFTS (r : Except String (List SearchResult)) : List SearchResult :=
  match r with
  | .ok rs => rs
  | .error _ => []

/-- The merge step of `HybridRetrieve`: BM25 results first, then vector
results, deduplicated by chunk ID, truncated to `k`. -/
def mergeResults (ftsResults vecResults : List SearchResult) (k : Nat) :
    List SearchResult :=
  let lex := filterSeen [] ftsResults
  let vecKept := filterSeen lex.2 vecResults
  let merged := lex.1 ++ vecKept.1
  if merged.length > k then merged.take k else merged

/-- `rag.HybridRetrieve`: run FTS keyword search and vector similarity
search, then merge and deduplicate with the lexical (BM25) matches first.
The store and embedder are abstracted as the three function parameters;
`Except` models Go's `(value, error)` returns. -/
def HybridRetrieve (ftsSearch : String → Nat → Except String (List SearchResult))
    (embedSingle : String → Except String (List Float))
    (search : List Float → Nat → Except String (List SearchResult))
    (query : String) (k : Nat) : Except String (List SearchResult) :=
  let ftsResults := recoverFTS (ftsSearch query k)
  match embedSingle query with
  | .error e => .error ("embed query: " ++ e)
  | .ok vec =>
    match search vec k with
    | .error e => .error ("vector search: " ++ e)
    | .ok vecResults => .ok (mergeResults ftsResults vecResults k)

/-- The kept results are a subsequence of the input (order preserved). -/
theorem filterSeen_sublist (seen : List Int) (rs : List SearchResult) :
    (filterSeen seen rs).1.Sublist rs := by
  induction rs generalizing seen with
  | nil => simp [filterSeen]
  | cons r rest ih =>
    simp only [filterSeen]
    split
    · exact (ih seen).trans (List.sublist_cons_self r rest)
    · exact (ih (r.chunk.id :: seen)).cons₂ r

/-- No kept result's chunk id was already in the seen set. -/
theorem filterSeen_not_seen (seen : List Int) (rs : List SearchResult) :
    ∀ x ∈ (filterSeen seen rs).1, x.chunk.id ∉ seen := by
  induction rs generalizing seen with
  | nil => simp [filterSeen]
  | cons r rest ih =>
    simp only [filterSeen]
    split
    · exact ih seen
    · rename_i hns
      intro x hx
      rcases List.mem_cons.1 hx with rfl | hx
      · exact hns
      · intro hmem
        exact ih (r.chunk.id :: seen) x hx (List.mem_cons_of_mem _ hmem)

/-- The final seen set holds exactly the initial seen ids plus the kept ids. -/
theorem filterSeen_seen_iff (seen : List Int) (rs : List SearchResult) (i : Int) :
    i ∈ (filterSeen seen rs).2 ↔
      i ∈ seen ∨ i ∈ (filterSeen seen rs).1.map (fun x => x.chunk.id) := by
  induction rs generalizing seen with
  | nil => simp [filterSeen]
  | cons r rest ih =>
    simp only [filterSeen]
    split
    · exact ih seen
    · rw [ih (r.chunk.id :: seen)]
      simp only [List.mem_cons, List.map_cons]
      tauto

/-- Every input result's chunk id ends up in the final seen set. -/
theorem filterSeen_covers (seen : List Int) (rs : List SearchResult) :
    ∀ r ∈ rs, r.chunk.id ∈ (filterSeen seen rs).2 := by
  induction rs generalizing seen with
  | nil => simp
  | cons r rest ih =>
    intro x hx
    simp only [filterSeen]
    split
    · rename_i hseen
      rcases List.mem_cons.1 hx with rfl | hx
      · rw [filterSeen_seen_iff]
        exact Or.inl hseen
      · exact ih seen x hx
    · rcases List.mem_cons.1 hx with rfl | hx
      · rw [filterSeen_seen_iff]
        exact Or.inl (List.mem_cons_self _ _)
      · exact ih (r.chunk.id :: seen) x hx

/-- The kept results carry pairwise distinct chunk ids. -/
theorem filterSeen_nodup (seen : List Int) (rs : List SearchResult) :
    ((filterSeen seen rs).1.map (fun x => x.chunk.id)).Nodup := by
  induction rs generalizing seen with
  | nil => simp [filterSeen]
  | cons r rest ih =>
    simp only [filterSeen]
    split
    · exact ih seen
    · simp only [List.map_cons, List.nodup_cons]
      refine ⟨?_, ih (r.chunk.id :: seen)⟩
      intro hmem
      rcases List.mem_map.1 hmem with ⟨x, hx, hid⟩
      have := filterSeen_not_seen (r.chunk.id :: seen) rest x hx
      exact this (by rw [hid]; exact List.mem_cons_self _ _)

/-- The merge step always equals the `k`-truncation of the two kept lists. -/
theorem mergeResults_eq (ftsR vecR : List SearchResult) (k : Nat) :
    mergeResults ftsR vecR k =
      ((filterSeen [] ftsR).1 ++ (filterSeen (filterSeen [] ftsR).2 vecR).1).take k := by
  by_cases h : ((filterSeen [] ftsR).1 ++
      (filterSeen (filterSeen [] ftsR).2 vecR).1).length > k
  · simp [mergeResults, h]
  · simp [mergeResults, h, List.take_of_length_le (Nat.le_of_not_lt h)]

/-- C1: on a successful hybrid retrieval with `k > 0`, the output has no
duplicate chunk ids, has length at most `k`, and is the `k`-truncation of a
subsequence of the lexical hits (in lexical order) followed by a subsequence
of the vector hits (in vector order) none of whose chunk ids occurs among
the lexical hits. -/
theorem HybridRetrieve_dedup_order
    (ftsS : String → Nat → Except String (List SearchResult))
    (embS : String → Except String (List Float))
    (srchS : List Float → Nat → Except String (List SearchResult))
    (q : String) (k : Nat) (v : List Float)
    (ftsR vecR out : List SearchResult)
    (hk : 0 < k)
    (hfts : ftsR = recoverFTS (ftsS q k))
    (hemb : embS q = .ok v) (hsrch : srchS v k = .ok vecR)
    (hrun : HybridRetrieve ftsS embS srchS q k = .ok out) :
    (out.map (fun r => r.chunk.id)).Nodup ∧ out.length ≤ k ∧
      ∃ lexKept pureVec : List SearchResult,
        out = (lexKept ++ pureVec).take k ∧
        lexKept.Sublist ftsR ∧ pureVec.Sublist vecR ∧
        ∀ r ∈ pureVec, r.chunk.id ∉ ftsR.map (fun s => s.chunk.id) := by
  have hout : out = ((filterSeen [] ftsR).1 ++
      (filterSeen (filterSeen [] ftsR).2 vecR).1).take k := by
    simp only [HybridRetrieve, hemb, hsrch, ← hfts, mergeResults_eq,
      Except.ok.injEq] at hrun
    exact hrun.symm
  set lexKept := (filterSeen [] ftsR).1 with hlex
  set pureVec := (filterSeen (filterSeen [] ftsR).2 vecR).1 with hpure
  have hnodup : ((lexKept ++ pureVec).map (fun r => r.chunk.id)).Nodup := by
    rw [List.map_append, List.nodup_append]
    refine ⟨filterSeen_nodup [] ftsR, filterSeen_nodup _ vecR, ?_⟩
    intro i hi hj
    rcases List.mem_map.1 hi with ⟨x, hx, hxid⟩
    rcases List.mem_map.1 hj with ⟨y, hy, hyid⟩
    have hyns := filterSeen_not_seen (filterSeen [] ftsR).2 vecR y hy
    apply hyns
    rw [filterSeen_seen_iff]
    right
    rw [hyid, ← hxid]
    exact List.mem_map.2 ⟨x, hx, rfl⟩
  refine ⟨?_, ?_, lexKept, pureVec, hout, filterSeen_sublist _ _,
      filterSeen_sublist _ _, ?_⟩
  · rw [hout]
    exact (((List.take_sublist _ _).map _).nodup hnodup)
  · rw [hout, List.length_take]
    exact min_le_left _ _
  · intro r hr hmem
    rcases List.mem_map.1 hmem with ⟨s, hs, hsid⟩
    have := filterSeen_not_seen (filterSeen [] ftsR).2 vecR r hr
    apply this
    rw [← hsid]
    exact filterSeen_covers [] ftsR s hs

/-- C2: error handling of hybrid retrieval.  A lexical-search error is
recovered (the run proceeds exactly as with an empty lexical result set);
the retrieval fails precisely when embedding the question fails (error
`embed query: …`) or the vector search fails (error `vector search: …`),
and succeeds whenever both succeed. -/
theorem HybridRetrieve_error_handling
    (ftsS : String → Nat → Except String (List SearchResult))
    (embS : String → Except String (List Float))
    (srchS : List Float → Nat → Except String (List SearchResult))
    (q : String) (k : Nat) :
    (∀ e, ftsS q k = .error e →
        HybridRetrieve ftsS embS srchS q k =
          HybridRetrieve (fun _ _ => .ok []) embS srchS q k) ∧
    (∀ e, embS q = .error e →
        HybridRetrieve ftsS embS srchS q k = .error ("embed query: " ++ e)) ∧
    (∀ v e, embS q = .ok v → srchS v k = .error e →
        HybridRetrieve ftsS embS srchS q k = .error ("vector search: " ++ e)) ∧
    (∀ v rs, embS q = .ok v → srchS v k = .ok rs →
        ∃ out, HybridRetrieve ftsS embS srchS q k = .ok out) := by
  refine ⟨?_, ?_, ?_, ?_⟩
  · intro e he
    unfold HybridRetrieve
    rw [he]
    rfl
  · intro e he
    unfold HybridRetrieve
    rw [he]
  · intro v e hv he
    simp only [HybridRetrieve, hv, he]
  · intro v rs hv hs
    simp only [HybridRetrieve, hv, hs]
    exact ⟨_, rfl⟩

/-- Concrete retrieval fixtures for the witnesses. -/
def wChunkA : Chunk := ⟨1, 1, "Add", "function_declaration", 1, 3, "func Add", "{}"⟩

def wChunkB : Chunk := ⟨2, 1, "Sub", "function_declaration", 5, 7, "func Sub", "{}"⟩

def wResA : SearchResult := ⟨wChunkA, "main.go", "go", 0.0⟩

def wResA2 : SearchResult := ⟨wChunkA, "main.go", "go", 0.5⟩

def wResB : SearchResult := ⟨wChunkB, "main.go", "go", 0.7⟩

/-- Witness for C1: a concrete run (one lexical hit, a duplicate vector hit
plus a fresh one, `k = 2`) satisfying every hypothesis. -/
theorem HybridRetrieve_dedup_order_witness :
    (List.map (fun r => r.chunk.id) [wResA, wResB]).Nodup ∧
      [wResA, wResB].length ≤ 2 ∧
      ∃ lexKept pureVec : List SearchResult,
        [wResA, wResB] = (lexKept ++ pureVec).take 2 ∧
        lexKept.Sublist [wResA] ∧ pureVec.Sublist [wResA2, wResB] ∧
        ∀ r ∈ pureVec, r.chunk.id ∉ [wResA].map (fun s => s.chunk.id) :=
  HybridRetrieve_dedup_order
    (fun _ _ => .ok [wResA]) (fun _ => .ok []) (fun _ _ => .ok [wResA2, wResB])
    "question" 2 [] [wResA] [wResA2, wResB] [wResA, wResB]
    (by decide) rfl rfl rfl rfl

/-- Witness for C2: the error-handling theorem applied at a concrete input
(the lexical search failing, embedding and vector search succeeding). -/
theorem HybridRetrieve_error_handling_witness :
    HybridRetrieve (fun _ _ => .error "fts5: syntax error")
        (fun _ => .ok []) (fun _ _ => .ok [wResB]) "question" 3 =
      HybridRetrieve (fun _ _ => .ok []) (fun _ => .ok [])
        (fun _ _ => .ok [wResB]) "question" 3 :=
  (HybridRetrieve_error_handling (fun _ _ => .error "fts5: syntax error")
      (fun _ => .ok []) (fun _ _ => .ok [wResB]) "question" 3).1
    "fts5: syntax error" rfl

/- ===================================================================
   AST chunker: capture dedup (internal/chunker/chunker.go, dedup)
   =================================================================== -/

/-- `chunker.capture`: a raw query capture.  `startByte`/`endByte` are
`uint32` byte offsets from tree-sitter; a node's span never wraps
(`startByte ≤ endByte`), so plain `Nat` arithmetic coincides with the Go
`uint32` arithmetic on every reachable input. -/
structure capture where
  name : String
  kind : String
  startLine : Int
  endLine : Int
  startByte : Nat
  endByte : Nat
deriving Repr, DecidableEq

/-- The comparator passed to `sort.Slice` in `dedup`: start byte ascending,
then span length descending ("larger first").  `capLe a b` is the
non-strict version (`¬ less(b, a)`) used by the model's stable sort; any
sort consistent with the Go comparator orders equal keys arbitrarily, and
the verified properties do not depend on the tie order. -/
def capLe (a b : capture) : Bool :=
  a.startByte < b.startByte ||
    (a.startByte == b.startByte &&
      b.endByte - b.startByte ≤ a.endByte - a.startByte)

/-- The left-to-right sweep of `dedup` over the sorted captures: keep a
capture when its start byte is at or after the rolling maximum end byte
(`lastEnd`, initially 0), and raise the rolling maximum to the kept
capture's end byte when larger. -/
def sweep : List capture → Nat → List capture
  | [], _ => []
  | c :: rest, lastEnd =>
    if lastEnd ≤ c.startByte ∨ lastEnd = 0 then
      c :: sweep rest (max lastEnd c.endByte)
    else
      sweep rest lastEnd

/-- `chunker.dedup`: remove captures fully contained in a larger capture. -/
def dedup (caps : List capture) : List capture :=
  if caps.length ≤ 1 then caps
  else sweep (caps.mergeSort capLe) 0

/-- `a`'s byte span is strictly contained in `b`'s span. -/
def strictlyContained (a b : capture) : Prop :=
  b.startByte ≤ a.startByte ∧ a.endByte ≤ b.endByte ∧
    (b.startByte < a.startByte ∨ a.endByte < b.endByte)

/-- Two captures' byte spans do not overlap (adjacency allowed). -/
def disjointSpans (a b : capture) : Prop :=
  a.endByte ≤ b.startByte ∨ b.endByte ≤ a.startByte

theorem sweep_sublist (l : List capture) (lastEnd : Nat) :
    (sweep l lastEnd).Sublist l := by
  induction l generalizing lastEnd with
  | nil => simp [sweep]
  | cons c rest ih =>
    simp only [sweep]
    split
    · exact (ih (max lastEnd c.endByte)).cons₂ c
    · exact (ih lastEnd).trans (List.sublist_cons_self c rest)

/-- Every kept capture starts at or after the incoming rolling maximum
(unless that maximum is still the initial 0). -/
theorem sweep_ge (l : List capture) (lastEnd : Nat) :
    ∀ a ∈ sweep l lastEnd, lastEnd ≤ a.startByte ∨ lastEnd = 0 := by
  induction l generalizing lastEnd with
  | nil => simp [sweep]
  | cons c rest ih =>
    simp only [sweep]
    split
    · rename_i hkeep
      intro a ha
      rcases List.mem_cons.1 ha with rfl | ha
      · exact hkeep
      · rcases ih (max lastEnd c.endByte) a ha with h | h
        · exact Or.inl (le_trans (le_max_left _ _) h)
        · exact Or.inl (by omega)
    · exact ih lastEnd

/-- After the sweep, the kept captures are pairwise ordered with
non-overlapping spans, provided every capture has a positive end byte
(true of any capture with a non-empty span). -/
theorem sweep_chain (l : List capture) (lastEnd : Nat)
    (hpos : ∀ c ∈ l, 0 < c.endByte) :
    List.Pairwise (fun a b => a.endByte ≤ b.startByte) (sweep l lastEnd) := by
  induction l generalizing lastEnd with
  | nil => simp [sweep]
  | cons c rest ih =>
    have hpos' : ∀ x ∈ rest, 0 < x.endByte := fun x hx =>
      hpos x (List.mem_cons_of_mem _ hx)
    simp only [sweep]
    split
    · refine List.Pairwise.cons ?_ (ih (max lastEnd c.endByte) hpos')
      intro b hb
      rcases sweep_ge rest (max lastEnd c.endByte) b hb with h | h
      · exact le_trans (le_max_right _ _) h
      · have := hpos c (List.mem_cons_self _ _)
        omega
    · exact ih lastEnd hpos'

/-- When the (sorted) captures are already pairwise non-overlapping and the
rolling maximum does not cut the first capture, the sweep keeps everything. -/
theorem sweep_keep_all (l : List capture) (lastEnd : Nat)
    (hchain : List.Pairwise (fun a b => a.endByte ≤ b.startByte) l)
    (hL : ∀ c ∈ l, lastEnd ≤ c.startByte ∨ lastEnd = 0) :
    sweep l lastEnd = l := by
  induction l generalizing lastEnd with
  | nil => simp [sweep]
  | cons c rest ih =>
    rcases List.pairwise_cons.1 hchain with ⟨hc, hrest⟩
    simp only [sweep]
    rw [if_pos (hL c (List.mem_cons_self _ _))]
    congr 1
    apply ih (max lastEnd c.endByte) hrest
    intro d hd
    left
    rcases hL d (List.mem_cons_of_mem _ hd) with h | h
    · exact max_le h (hc d hd)
    · subst h
      simpa using hc d hd

/-- `capLe` is total. -/
theorem capLe_total (a b : capture) : capLe a b || capLe b a := by
  simp only [capLe, Bool.or_eq_true, Bool.and_eq_true, decide_eq_true_eq,
    beq_iff_eq]
  omega

/-- `capLe` is transitive. -/
theorem capLe_trans (a b c : capture) :
    capLe a b = true → capLe b c = true → capLe a c = true := by
  simp only [capLe, Bool.or_eq_true, Bool.and_eq_true, decide_eq_true_eq,
    beq_iff_eq]
  omega

/-- C3: capture deduplication.  For any capture list whose spans are
non-empty (`startByte < endByte`, true of every tree-sitter node a `@chunk`
pattern can capture): (1) no kept capture's byte span is strictly contained
in another kept capture's span, and (2) when the input captures are pairwise
non-overlapping (in particular, adjacent), every one of them is kept. -/
theorem dedup_spec (caps : List capture)
    (hwf : ∀ c ∈ caps, c.startByte < c.endByte) :
    (∀ a ∈ dedup caps, ∀ b ∈ dedup caps, ¬ strictlyContained a b) ∧
    (List.Pairwise disjointSpans caps → ∀ c ∈ caps, c ∈ dedup caps) := by
  by_cases hlen : caps.length ≤ 1
  · have hdd : dedup caps = caps := by simp [dedup, hlen]
    have hsingle : ∀ a ∈ caps, ∀ b ∈ caps, a = b := by
      match caps, hlen with
      | [], _ => simp
      | [x], _ => simp
    refine ⟨?_, ?_⟩
    · intro a ha b hb
      rw [hdd] at ha hb
      have hab : a = b := hsingle a ha b hb
      subst hab
      rintro ⟨_, _, h | h⟩ <;> omega
    · intro _ c hc
      rw [hdd]
      exact hc
  · have hdd : dedup caps = sweep (caps.mergeSort capLe) 0 := by
      simp [dedup, hlen]
    have hperm : (caps.mergeSort capLe).Perm caps := List.mergeSort_perm _ _
    have hwfs : ∀ c ∈ caps.mergeSort capLe, c.startByte < c.endByte :=
      fun c hc => hwf c (hperm.mem_iff.1 hc)
    have hpos : ∀ c ∈ caps.mergeSort capLe, 0 < c.endByte := by
      intro c hc
      have := hwfs c hc
      omega
    refine ⟨?_, ?_⟩
    · -- no kept capture strictly contained in another kept capture
      intro a ha b hb hcont
      rw [hdd] at ha hb
      have hmemwf : ∀ x ∈ sweep (caps.mergeSort capLe) 0,
          x.startByte < x.endByte := fun x hx =>
        hwfs x ((sweep_sublist _ _).mem hx)
      have hchain := sweep_chain (caps.mergeSort capLe) 0 hpos
      by_cases hab : a = b
      · subst hab
        rcases hcont with ⟨_, _, h | h⟩ <;> omega
      · have hdisj : disjointSpans a b := by
          have hsym : Symmetric (fun x y : capture => disjointSpans x y) := by
            intro x y h
            rcases h with h | h
            · exact Or.inr h
            · exact Or.inl h
          exact (hchain.imp (fun h => Or.inl h)).forall hsym ha hb hab
        have hawf := hmemwf a ha
        have hbwf := hmemwf b hb
        rcases hcont with ⟨h1, h2, _⟩
        rcases hdisj with h | h <;> omega
    · -- pairwise non-overlapping captures are all kept
      intro hpw c hc
      have hsymm : ∀ {x y : capture}, disjointSpans x y → disjointSpans y x := by
        intro x y h
        rcases h with h | h
        · exact Or.inr h
        · exact Or.inl h
      have hpws : List.Pairwise disjointSpans (caps.mergeSort capLe) :=
        (List.Perm.pairwise_iff hsymm hperm).2 hpw
      have hsorted : List.Pairwise (fun a b => capLe a b = true)
          (caps.mergeSort capLe) :=
        List.sorted_mergeSort capLe_trans capLe_total caps
      have hchain : List.Pairwise (fun a b => a.endByte ≤ b.startByte)
          (caps.mergeSort capLe) := by
        refine (hsorted.and hpws).imp_of_mem ?_
        intro a b ha hb hab
        rcases hab with ⟨hle, hd | hd⟩
        · exact hd
        · have hale := hwfs a ha
          have hble := hwfs b hb
          simp only [capLe, Bool.or_eq_true, Bool.and_eq_true,
            decide_eq_true_eq, beq_iff_eq] at hle
          omega
      have hall : sweep (caps.mergeSort capLe) 0 = caps.mergeSort capLe :=
        sweep_keep_all _ 0 hchain (fun d _ => Or.inr rfl)
      rw [hdd, hall]
      exact hperm.mem_iff.2 hc

/-- Concrete captures for the C3 witness: two adjacent non-overlapping
function captures. -/
def wCapF : capture := ⟨"f", "function_definition", 1, 3, 0, 40⟩

def wCapG : capture := ⟨"g", "function_definition", 4, 6, 40, 90⟩

/-- Witness for C3: the dedup theorem applied to two concrete adjacent
captures with non-empty spans. -/
theorem dedup_spec_witness :
    (∀ a ∈ dedup [wCapF, wCapG], ∀ b ∈ dedup [wCapF, wCapG],
        ¬ strictlyContained a b) ∧
    (List.Pairwise disjointSpans [wCapF, wCapG] →
        ∀ c ∈ [wCapF, wCapG], c ∈ dedup [wCapF, wCapG]) :=
  dedup_spec [wCapF, wCapG] (by decide)

/- ===================================================================
   AST chunker: oversized splitting (internal/chunker/chunker.go,
   splitOversized)
   =================================================================== -/

/-- `chunker.RawChunk`: a chunk extracted from a source file. -/
structure RawChunk where
  name : String
  kind : String
  startLine : Int
  endLine : Int
  content : String
deriving Repr, DecidableEq

/-- `const maxChunkBytes = 8192` -/
def maxChunkBytes : Nat := 8192

/-- `const windowSize = 40` -/
def windowSize : Nat := 40

/-- `const overlap = 10` -/
def overlap : Nat := 10

/-- The loop of `splitOversized`: emit the window of source lines
`[i, min (i+40) len)`, then advance `i` by `windowSize - overlap = 30`
unless the window reached the end of the lines. -/
def splitLoop (lines : List String) (name kind : String) (baseStartLine : Int)
    (i : Nat) : List RawChunk :=
  if h : i < lines.length then
    RawChunk.mk name kind (baseStartLine + i)
        (baseStartLine + (min (i + windowSize) lines.length) - 1)
        (String.intercalate "\n"
          ((lines.drop i).take (min (i + windowSize) lines.length - i))) ::
      (if lines.length ≤ min (i + windowSize) lines.length then []
       else splitLoop lines name kind baseStartLine (i + (windowSize - overlap)))
  else []
termination_by lines.length - i
decreasing_by simp only [windowSize, overlap]; omega

/-- `chunker.splitOversized`: split a chunk exceeding `maxChunkBytes` into
windows of `windowSize` lines with `overlap` lines of overlap, at line
boundaries (`strings.Split(content, "\n")`). -/
def splitOversized (content name kind : String) (baseStartLine : Int) :
    List RawChunk :=
  splitLoop (content.splitOn "\n") name kind baseStartLine 0

/-- `String.splitOnAux` never returns the empty list. -/
theorem splitOnAux_ne_nil (s sep : String) (b i j : String.Pos)
    (r : List String) : String.splitOnAux s sep b i j r ≠ [] := by
  induction b, i, j, r using String.splitOnAux.induct s sep with
  | case1 b i j r h =>
    rw [String.splitOnAux]
    simp [h]
  | case2 b i j r h1 h2 i' j' h3 ih =>
    rw [String.splitOnAux]
    simp_all
  | case3 b i j r h1 h2 i' j' h3 ih =>
    rw [String.splitOnAux]
    simp_all
  | case4 b i j r h1 h2 ih =>
    rw [String.splitOnAux]
    simp_all

/-- `String.splitOn` never returns the empty list (Go's `strings.Split`
always yields at least one element). -/
theorem splitOn_ne_nil (s sep : String) : s.splitOn sep ≠ [] := by
  rw [String.splitOn]
  split
  · simp
  · exact splitOnAux_ne_nil s sep 0 0 0 []

/-- One unfolding step of `splitLoop` below the end of the lines. -/
theorem splitLoop_eq (lines : List String) (name kind : String) (base : Int)
    (i : Nat) (h : i < lines.length) :
    splitLoop lines name kind base i =
      RawChunk.mk name kind (base + i)
          (base + (min (i + windowSize) lines.length) - 1)
          (String.intercalate "\n"
            ((lines.drop i).take (min (i + windowSize) lines.length - i))) ::
        (if lines.length ≤ min (i + windowSize) lines.length then []
         else splitLoop lines name kind base (i + (windowSize - overlap))) := by
  rw [splitLoop]
  rw [dif_pos h]

/-- `splitLoop` past the end of the lines is empty. -/
theorem splitLoop_eq_nil (lines : List String) (name kind : String)
    (base : Int) (i : Nat) (h : ¬ i < lines.length) :
    splitLoop lines name kind base i = [] := by
  rw [splitLoop]
  rw [dif_neg h]

/-- Every window produced by `splitLoop` inherits `name`/`kind` and covers
the line range of a window start `j ≥ i` strictly inside the lines. -/
theorem splitLoop_mem (lines : List String) (name kind : String) (base : Int)
    (i : Nat) :
    ∀ w ∈ splitLoop lines name kind base i,
      w.name = name ∧ w.kind = kind ∧
      ∃ j : Nat, i ≤ j ∧ j < lines.length ∧ w.startLine = base + j ∧
        w.endLine = base + (min (j + windowSize) lines.length) - 1 := by
  by_cases h : i < lines.length
  · rw [splitLoop_eq lines name kind base i h]
    intro w hw
    rcases List.mem_cons.1 hw with rfl | hw
    · exact ⟨rfl, rfl, i, le_refl i, h, rfl, rfl⟩
    · by_cases hend : lines.length ≤ min (i + windowSize) lines.length
      · rw [if_pos hend] at hw
        simp at hw
      · rw [if_neg hend] at hw
        rcases splitLoop_mem lines name kind base (i + (windowSize - overlap))
            w hw with ⟨hn, hk, j, hij, hjl, hs, he⟩
        exact ⟨hn, hk, j, by omega, hjl, hs, he⟩
  · rw [splitLoop_eq_nil lines name kind base i h]
    simp
termination_by lines.length - i
decreasing_by simp only [windowSize, overlap] at *; omega

/-- Consecutive windows of `splitLoop` advance by 30 lines; every
non-final window spans exactly 40 lines and overlaps its successor in
exactly 10 lines; the line ranges strictly increase. -/
theorem splitLoop_chain (lines : List String) (name kind : String)
    (base : Int) (i : Nat) :
    List.Chain' (fun a b =>
        b.startLine = a.startLine + 30 ∧ a.endLine = a.startLine + 39 ∧
        a.endLine - b.startLine + 1 = 10 ∧ a.startLine < b.startLine ∧
        a.endLine < b.endLine)
      (splitLoop lines name kind base i) := by
  by_cases h : i < lines.length
  · rw [splitLoop_eq lines name kind base i h]
    by_cases hend : lines.length ≤ min (i + windowSize) lines.length
    · rw [if_pos hend]
      exact List.chain'_singleton _
    · rw [if_neg hend]
      have h30 : i + (windowSize - overlap) < lines.length := by
        simp only [windowSize, overlap] at hend ⊢
        omega
      rw [List.chain'_cons']
      refine ⟨?_, splitLoop_chain lines name kind base (i + (windowSize - overlap))⟩
      intro b hb
      rw [splitLoop_eq lines name kind base _ h30] at hb
      rw [List.head?_cons, Option.mem_def, Option.some.injEq] at hb
      subst hb
      simp only [windowSize, overlap] at hend ⊢
      refine ⟨by push_cast; omega, by push_cast; omega, by push_cast; omega,
        by push_cast; omega, by push_cast; omega⟩
  · rw [splitLoop_eq_nil lines name kind base i h]
    exact List.chain'_nil
termination_by lines.length - i
decreasing_by simp only [windowSize, overlap] at *; omega

/-- C4: splitting an oversized chunk.  The split is non-empty; every window
inherits the original `name` and `kind`, starts at or after the original
`start_line`, and spans at most 40 lines (`end_line - start_line + 1 ≤ 40`);
the first window starts exactly at the original `start_line`; consecutive
windows advance by 30 source lines, every non-final window spans exactly
40 lines and shares exactly 10 source lines with its successor, and the
windows' line ranges are strictly increasing. -/
theorem splitOversized_spec (content name kind : String) (base : Int)
    (hbig : maxChunkBytes < content.utf8ByteSize) :
    splitOversized content name kind base ≠ [] ∧
    (∀ w ∈ splitOversized content name kind base,
        w.name = name ∧ w.kind = kind ∧ base ≤ w.startLine ∧
        w.startLine ≤ w.endLine ∧ w.endLine - w.startLine + 1 ≤ 40) ∧
    (∀ w, (splitOversized content name kind base).head? = some w →
        w.startLine = base) ∧
    List.Chain' (fun a b =>
        b.startLine = a.startLine + 30 ∧ a.endLine = a.startLine + 39 ∧
        a.endLine - b.startLine + 1 = 10 ∧ a.startLine < b.startLine ∧
        a.endLine < b.endLine)
      (splitOversized content name kind base) := by
  have hlines : 0 < (content.splitOn "\n").length :=
    List.length_pos.2 (splitOn_ne_nil content "\n")
  refine ⟨?_, ?_, ?_, splitLoop_chain _ name kind base 0⟩
  · rw [splitOversized, splitLoop_eq _ name kind base 0 hlines]
    simp
  · intro w hw
    rcases splitLoop_mem _ name kind base 0 w hw with
      ⟨hn, hk, j, _, hjl, hs, he⟩
    refine ⟨hn, hk, ?_, ?_, ?_⟩
    · rw [hs]; omega
    · rw [hs, he]; simp only [windowSize]; push_cast; omega
    · rw [hs, he]; simp only [windowSize]; push_cast; omega
  · intro w hw
    rw [splitOversized, splitLoop_eq _ name kind base 0 hlines,
      List.head?_cons, Option.some.injEq] at hw
    subst hw
    simp

/-- Auxiliary byte count: `n` repetitions of `'a'` occupy `n` UTF-8 bytes. -/
theorem utf8Size_go_replicate (n : Nat) :
    String.utf8ByteSize.go (List.replicate n 'a') = n := by
  induction n with
  | zero => rfl
  | succ k ih =>
    rw [List.replicate_succ]
    show String.utf8ByteSize.go (List.replicate k 'a') + Char.utf8Size 'a' = k + 1
    rw [ih, show Char.utf8Size 'a' = 1 from rfl]

theorem utf8ByteSize_replicate_a (n : Nat) :
    (String.mk (List.replicate n 'a')).utf8ByteSize = n :=
  utf8Size_go_replicate n

/-- Witness for C4: a concrete 8,200-byte content exceeding the 8,192-byte
bound. -/
theorem splitOversized_spec_witness :
    maxChunkBytes < (String.mk (List.replicate 8200 'a')).utf8ByteSize ∧
      splitOversized (String.mk (List.replicate 8200 'a'))
          "big" "function_definition" 7 ≠ [] :=
  ⟨by rw [utf8ByteSize_replicate_a]; decide,
   (splitOversized_spec (String.mk (List.replicate 8200 'a'))
      "big" "function_definition" 7
      (by rw [utf8ByteSize_replicate_a]; decide)).1⟩

/- ===================================================================
   Directory walker (internal/walker/walker.go)
   =================================================================== -/

/-- `walker.FileInfo`: a discovered source file.  The absolute path is the
root joined with `relPath` and carries no extra information in the model
(the root is abstract), so only the repo-relative forward-slash path and
the size are kept. -/
structure FileInfo where
  relPath : String
  size : Nat
deriving Repr, DecidableEq

/-- An abstract file tree: what `filepath.WalkDir` traverses.  A directory
entry that is a symlink is reported by `WalkDir` as a non-directory entry
with the symlink mode bit, so symlinks (to files or directories) are
modelled as `file` nodes with `isSymlink = true`. -/
inductive FSNode where
  | file (name : String) (isSymlink : Bool) (size : Nat)
  | dir (name : String) (entries : List FSNode)
deriving Repr

/-- `const maxFileSize = 1 << 20` -/
def maxFileSize : Nat := 1 <<< 20

/-- `walker.defaultIgnores` -/
def defaultIgnores : List String :=
  [".git", ".svn", ".hg", "node_modules", "vendor", "__pycache__",
   ".idea", ".vscode", ".synapse", "dist", "build"]

/-- `strings.TrimPrefix(filepath.Ext(name), ".")`: the extension of the
final path element, without the leading dot ("" when there is no dot). -/
def extOf (name : String) : String :=
  if (name.splitOn ".").length ≤ 1 then "" else (name.splitOn ".").getLastD ""

/-- Forward-slash join of path segments (`filepath.ToSlash` of the
relative path). -/
def joinPath (segs : List String) : String := String.intercalate "/" segs

/-- `walker.matchesIgnore`: a directory matches when any pattern equals its
base name, is a prefix of its forward-slash relative path, or glob-matches
the relative path or the base name.  `filepath.Match` is external
(`globMatch` parameter); `matchesIgnore` only consumes its boolean
verdicts. -/
def matchesIgnore (globMatch : String → String → Bool)
    (name relPath : String) (patterns : List String) : Bool :=
  patterns.any (fun p =>
    name == p || relPath.startsWith p || globMatch p relPath || globMatch p name)

mutual

/-- The body of the `filepath.WalkDir` callback in `walker.Walk`, visiting
one entry whose parent directory lies at `relDir` (segments below the
root): directories are pruned on an ignore match, symlinks are skipped,
and a regular file is emitted when its extension is allowed and
`0 < size ≤ maxFileSize`. -/
def walkNode (globMatch : String → String → Bool)
    (ignores allowedExts : List String) (relDir : List String) :
    FSNode → List FileInfo
  | .file name sym size =>
    if sym then []
    else if ¬ allowedExts.contains (extOf name) then []
    else if size > maxFileSize ∨ size = 0 then []
    else [⟨joinPath (relDir ++ [name]), size⟩]
  | .dir name entries =>
    if matchesIgnore globMatch name (joinPath (relDir ++ [name])) ignores then []
    else walkList globMatch ignores allowedExts (relDir ++ [name]) entries

/-- `WalkDir`'s in-order traversal of a directory's entries. -/
def walkList (globMatch : String → String → Bool)
    (ignores allowedExts : List String) (relDir : List String) :
    List FSNode → List FileInfo
  | [] => []
  | e :: es => walkNode globMatch ignores allowedExts relDir e ++
      walkList globMatch ignores allowedExts relDir es

end

/-- `walker.Walk` on an abstract tree: traverse the root's entries (the
root directory itself is never matched against the ignore patterns).  The
pattern list is the one produced by `loadIgnorePatterns`; it is passed in
explicitly here and specified separately. -/
def Walk (globMatch : String → String → Bool)
    (ignores allowedExts : List String) (entries : List FSNode) :
    List FileInfo :=
  walkList globMatch ignores allowedExts [] entries

mutual

/-- All files in a node, with their segment paths, symlink flags, sizes. -/
def allFilesNode : FSNode → List (List String × Bool × Nat)
  | .file name sym size => [([name], sym, size)]
  | .dir name entries => (allFilesList entries).map (fun t => (name :: t.1, t.2))

/-- All files under a list of sibling nodes. -/
def allFilesList : List FSNode → List (List String × Bool × Nat)
  | [] => []
  | e :: es => allFilesNode e ++ allFilesList es

end

/-- Specification-side eligibility of a file (segments `s`, symlink flag
`y`, size `z`) for emission by the walker, relative to the directory
`relDir`: the emitted descriptor equals the joined relative path and size;
the file is not a symlink; its extension is permitted; its size is
strictly positive and at most `maxFileSize`; and no directory on its path
below `relDir` (proper non-empty segment prefix) matches the ignore
patterns. -/
def eligible (globMatch : String → String → Bool)
    (ignores allowedExts : List String) (relDir s : List String)
    (y : Bool) (z : Nat) (info : FileInfo) : Prop :=
  info.relPath = joinPath (relDir ++ s) ∧ info.size = z ∧ y = false ∧
  allowedExts.contains (extOf (s.getLastD "")) = true ∧
  0 < z ∧ z ≤ maxFileSize ∧
  ∀ pre, pre ≠ [] → pre ≠ s → pre <+: s →
    matchesIgnore globMatch (pre.getLastD "") (joinPath (relDir ++ pre))
      ignores = false

/-- File paths recorded by `allFilesList` are never empty. -/
theorem allFilesList_ne_nil :
    ∀ (es : List FSNode) s y z, (s, y, z) ∈ allFilesList es → s ≠ [] := by
  intro es
  match es with
  | [] => simp [allFilesList]
  | e :: rest =>
    intro s y z hmem
    rw [allFilesList, List.mem_append] at hmem
    rcases hmem with hmem | hmem
    · match e, hmem with
      | .file n sym sz, hmem =>
        rw [allFilesNode] at hmem
        simp only [List.mem_singleton, Prod.mk.injEq] at hmem
        rw [hmem.1]
        simp
      | .dir n entries, hmem =>
        rw [allFilesNode] at hmem
        rcases List.mem_map.1 hmem with ⟨t, _, ht⟩
        have hs : s = n :: t.1 := congrArg Prod.fst ht.symm
        rw [hs]
        simp
    · exact allFilesList_ne_nil rest s y z hmem

/-- The default value of `getLastD` on a non-nil cons is irrelevant. -/
theorem getLastD_cons_irrel (a : String) (l : List String) (d₁ d₂ : String) :
    (a :: l).getLastD d₁ = (a :: l).getLastD d₂ := by
  rw [List.getLastD_cons, List.getLastD_cons]

theorem getLastD_cons_ne (n : String) (q : List String) (hq : q ≠ [])
    (d : String) : (n :: q).getLastD d = q.getLastD d := by
  match q, hq with
  | a :: t, _ =>
    rw [List.getLastD_cons]
    exact getLastD_cons_irrel a t n d

theorem prefix_singleton {α : Type} (pre : List α) (n : α) (h : pre <+: [n]) :
    pre = [] ∨ pre = [n] := by
  match pre with
  | [] => exact Or.inl rfl
  | a :: t =>
    rcases List.cons_prefix_cons.1 h with ⟨rfl, ht⟩
    rw [List.prefix_nil.1 ht]
    exact Or.inr rfl

/-- A file directly inside `relDir` is eligible iff it survives the
symlink, extension and size checks (there is no directory on its path
below `relDir` to match the ignores). -/
theorem walkNode_file_mem (globMatch : String → String → Bool)
    (ignores allowedExts : List String) (relDir : List String)
    (n : String) (sym : Bool) (sz : Nat) (info : FileInfo) :
    info ∈ walkNode globMatch ignores allowedExts relDir (.file n sym sz) ↔
      eligible globMatch ignores allowedExts relDir [n] sym sz info := by
  constructor
  · intro h
    rw [walkNode] at h
    by_cases h1 : sym
    · rw [if_pos h1] at h; simp at h
    rw [if_neg h1] at h
    by_cases h2 : allowedExts.contains (extOf n)
    case neg => rw [if_pos h2] at h; simp at h
    rw [if_neg (by simpa using h2)] at h
    by_cases h3 : sz > maxFileSize ∨ sz = 0
    · rw [if_pos h3] at h; simp at h
    rw [if_neg h3] at h
    rcases List.mem_singleton.1 h with rfl
    refine ⟨rfl, rfl, by simpa using h1, by simpa using h2, by omega,
      by omega, ?_⟩
    intro pre hne hself hpre
    rcases prefix_singleton pre n hpre with rfl | rfl
    · exact absurd rfl hne
    · exact absurd rfl hself
  · rintro ⟨h1, h2, h3, h4, h5, h6, _⟩
    have h4' : allowedExts.contains (extOf n) = true := by simpa using h4
    rw [walkNode, if_neg (by simp [h3]), if_neg (not_not_intro h4'),
      if_neg (by omega)]
    rcases info with ⟨rp, zz⟩
    simp only at h1 h2
    rw [h1, h2]
    exact List.mem_singleton.2 rfl

/-- Splitting eligibility at a directory: a file at `n :: p` is eligible
relative to `relDir` iff the directory `n` itself does not match the
ignores and the file at `p` is eligible relative to `relDir ++ [n]`. -/
theorem eligible_cons (globMatch : String → String → Bool)
    (ignores allowedExts : List String) (relDir : List String)
    (n : String) (p : List String) (hp : p ≠ [])
    (y : Bool) (z : Nat) (info : FileInfo) :
    eligible globMatch ignores allowedExts relDir (n :: p) y z info ↔
      (matchesIgnore globMatch n (joinPath (relDir ++ [n])) ignores = false ∧
       eligible globMatch ignores allowedExts (relDir ++ [n]) p y z info) := by
  have happ : ∀ q : List String, relDir ++ n :: q = (relDir ++ [n]) ++ q := by
    intro q
    simp
  have hlast : ∀ q : List String, q ≠ [] →
      (n :: q).getLastD "" = q.getLastD "" := fun q hq =>
    getLastD_cons_ne n q hq ""
  constructor
  · rintro ⟨h1, h2, h3, h4, h5, h6, h7⟩
    refine ⟨?_, h1.trans (by rw [happ p]), h2, h3, by rwa [hlast p hp] at h4,
      h5, h6, ?_⟩
    · have := h7 [n] (by simp)
        (by intro heq; rw [List.cons.injEq] at heq; exact hp heq.2.symm)
        (List.cons_prefix_cons.2 ⟨rfl, List.nil_prefix⟩)
      simpa using this
    · intro q hq hqp hqpre
      have := h7 (n :: q) (by simp)
        (by intro heq; rw [List.cons.injEq] at heq; exact hqp heq.2)
        (List.cons_prefix_cons.2 ⟨rfl, hqpre⟩)
      rwa [hlast q hq, happ q] at this
  · rintro ⟨hnm, h1, h2, h3, h4, h5, h6, h7⟩
    refine ⟨h1.trans (by rw [happ p]), h2, h3, by rwa [hlast p hp], h5, h6, ?_⟩
    intro pre hne hself hpre
    match pre, hne with
    | a :: q, _ =>
      rcases List.cons_prefix_cons.1 hpre with ⟨rfl, hq⟩
      match q with
      | [] => simpa using hnm
      | b :: u =>
        have hqp : b :: u ≠ p := by
          intro heq
          exact hself (by rw [heq])
        have := h7 (b :: u) (by simp) hqp hq
        rw [hlast (b :: u) (by simp), happ (b :: u)]
        exact this

/-- The traversal of a sibling list emits exactly the eligible files. -/
theorem walkList_mem_iff (globMatch : String → String → Bool)
    (ignores allowedExts : List String) (es : List FSNode)
    (relDir : List String) (info : FileInfo) :
    info ∈ walkList globMatch ignores allowedExts relDir es ↔
      ∃ s y z, (s, y, z) ∈ allFilesList es ∧
        eligible globMatch ignores allowedExts relDir s y z info := by
  match es with
  | [] => simp [walkList, allFilesList]
  | e :: rest =>
    have ihrest := walkList_mem_iff globMatch ignores allowedExts rest
      relDir info
    rw [walkList, List.mem_append, ihrest]
    have hsplit : (∃ s y z, (s, y, z) ∈ allFilesList (e :: rest) ∧
        eligible globMatch ignores allowedExts relDir s y z info) ↔
        ((∃ s y z, (s, y, z) ∈ allFilesNode e ∧
            eligible globMatch ignores allowedExts relDir s y z info) ∨
         (∃ s y z, (s, y, z) ∈ allFilesList rest ∧
            eligible globMatch ignores allowedExts relDir s y z info)) := by
      rw [allFilesList]
      constructor
      · rintro ⟨s, y, z, hmem, he⟩
        rcases List.mem_append.1 hmem with hmem | hmem
        · exact Or.inl ⟨s, y, z, hmem, he⟩
        · exact Or.inr ⟨s, y, z, hmem, he⟩
      · rintro (⟨s, y, z, hmem, he⟩ | ⟨s, y, z, hmem, he⟩)
        · exact ⟨s, y, z, List.mem_append.2 (Or.inl hmem), he⟩
        · exact ⟨s, y, z, List.mem_append.2 (Or.inr hmem), he⟩
    rw [hsplit]
    have hnode : info ∈ walkNode globMatch ignores allowedExts relDir e ↔
        ∃ s y z, (s, y, z) ∈ allFilesNode e ∧
          eligible globMatch ignores allowedExts relDir s y z info := by
      match e with
      | .file n sym sz =>
        rw [walkNode_file_mem, allFilesNode]
        constructor
        · intro he
          exact ⟨[n], sym, sz, List.mem_singleton.2 rfl, he⟩
        · rintro ⟨s, y, z, hmem, he⟩
          rcases List.mem_singleton.1 hmem with h
          injection h with hs h
          injection h with hy hz
          subst hs; subst hy; subst hz
          exact he
      | .dir n ents =>
        have ihents := walkList_mem_iff globMatch ignores allowedExts ents
          (relDir ++ [n]) info
        rw [walkNode, allFilesNode]
        by_cases hm : matchesIgnore globMatch n (joinPath (relDir ++ [n]))
            ignores = true
        · rw [if_pos hm]
          simp only [List.mem_nil_iff, false_iff, not_exists]
          rintro s y z ⟨hmem, he⟩
          rcases List.mem_map.1 hmem with ⟨t, htmem, ht⟩
          have hs : s = n :: t.1 := congrArg Prod.fst ht.symm
          have hp : t.1 ≠ [] :=
            allFilesList_ne_nil ents t.1 t.2.1 t.2.2 (by simpa using htmem)
          subst hs
          have := ((eligible_cons globMatch ignores allowedExts relDir n t.1
            hp y z info).1 he).1
          rw [this] at hm
          simp at hm
        · rw [if_neg hm, ihents]
          have hm' : matchesIgnore globMatch n (joinPath (relDir ++ [n]))
              ignores = false := by
            simpa using hm
          constructor
          · rintro ⟨p, y, z, hmem, he⟩
            have hp : p ≠ [] := allFilesList_ne_nil ents p y z hmem
            refine ⟨n :: p, y, z, ?_, ?_⟩
            · exact List.mem_map.2 ⟨(p, y, z), hmem, rfl⟩
            · exact (eligible_cons globMatch ignores allowedExts relDir n p
                hp y z info).2 ⟨hm', he⟩
          · rintro ⟨s, y, z, hmem, he⟩
            rcases List.mem_map.1 hmem with ⟨t, htmem, ht⟩
            have hs : s = n :: t.1 := congrArg Prod.fst ht.symm
            have hyz : y = t.2.1 ∧ z = t.2.2 := by
              have := congrArg Prod.snd ht.symm
              exact ⟨congrArg Prod.fst this, congrArg Prod.snd this⟩
            have hp : t.1 ≠ [] :=
              allFilesList_ne_nil ents t.1 t.2.1 t.2.2 (by simpa using htmem)
            subst hs
            refine ⟨t.1, y, z, ?_, ?_⟩
            · rcases hyz with ⟨hy, hz⟩
              subst hy; subst hz
              simpa using htmem
            · exact ((eligible_cons globMatch ignores allowedExts relDir n t.1
                hp y z info).1 he).2
    rw [hnode]
termination_by sizeOf es
decreasing_by all_goals (simp; try omega)

/-- C5: the walker emits a descriptor for a file if and only if the file
is a non-symlink regular file somewhere under the root whose extension is
permitted, whose size is strictly positive and at most `maxFileSize`
(1 MiB), and no directory on its path below the root (proper non-empty
prefix of its segment path) matches an ignore pattern by exact base name,
relative-path prefix, or glob against base name or relative path. -/
theorem Walk_spec (globMatch : String → String → Bool)
    (ignores allowedExts : List String) (entries : List FSNode)
    (info : FileInfo) :
    info ∈ Walk globMatch ignores allowedExts entries ↔
      ∃ segs sym size, (segs, sym, size) ∈ allFilesList entries ∧
        info.relPath = joinPath segs ∧ info.size = size ∧ sym = false ∧
        allowedExts.contains (extOf (segs.getLastD "")) = true ∧
        0 < size ∧ size ≤ maxFileSize ∧
        ∀ pre, pre ≠ [] → pre ≠ segs → pre <+: segs →
          matchesIgnore globMatch (pre.getLastD "") (joinPath pre)
            ignores = false := by
  rw [Walk, walkList_mem_iff]
  simp only [eligible, List.nil_append]

/- ===================================================================
   Ignore-file loading (internal/walker/walker.go, loadIgnorePatterns)
   =================================================================== -/

/-- `walker.loadIgnorePatterns`: `none` models a missing `.synapseignore`
(the defaults are used, and a default file is written as a side effect);
`some fileLines` models the lines the `bufio.Scanner` yields from the
file.  Each line is whitespace-trimmed; blank lines and `#` comments are
skipped; if nothing remains, the defaults are used. -/
def loadIgnorePatterns (ignoreFile : Option (List String)) : List String :=
  match ignoreFile with
  | none => defaultIgnores
  | some fileLines =>
    let patterns := (fileLines.map (fun l => l.trim)).filter
      (fun l => !(l == "" || l.startsWith "#"))
    if patterns = [] then defaultIgnores else patterns

/-- C10: a `.synapseignore` holding only blank lines and `#` comments
yields the built-in default ignore list, not an empty pattern list, and
the default directories (e.g. `.git`) still match. -/
theorem loadIgnorePatterns_empty_defaults (fileLines : List String)
    (hall : ∀ l ∈ fileLines, l.trim = "" ∨ l.trim.startsWith "#" = true) :
    loadIgnorePatterns (some fileLines) = defaultIgnores ∧
    loadIgnorePatterns (some fileLines) ≠ [] ∧
    ∀ globMatch rel,
      matchesIgnore globMatch ".git" rel
        (loadIgnorePatterns (some fileLines)) = true := by
  have hfe : ((fileLines.map (fun l => l.trim)).filter
      (fun l => !(l == "" || l.startsWith "#"))) = [] := by
    rw [List.filter_eq_nil_iff]
    intro a ha
    rcases List.mem_map.1 ha with ⟨l, hl, rfl⟩
    rcases hall l hl with h | h <;> simp [h]
  have hld : loadIgnorePatterns (some fileLines) = defaultIgnores := by
    show (if ((fileLines.map (fun l => l.trim)).filter
        (fun l => !(l == "" || l.startsWith "#"))) = [] then defaultIgnores
      else ((fileLines.map (fun l => l.trim)).filter
        (fun l => !(l == "" || l.startsWith "#")))) = defaultIgnores
    rw [if_pos hfe]
  refine ⟨hld, ?_, ?_⟩
  · rw [hld]
    simp [defaultIgnores]
  · intro globMatch rel
    rw [hld]
    simp [matchesIgnore, defaultIgnores]

/-- Witness for C10: an ignore file from which the scanner yields no lines
(an empty file). -/
theorem loadIgnorePatterns_empty_defaults_witness :
    loadIgnorePatterns (some []) = defaultIgnores ∧
    loadIgnorePatterns (some []) ≠ [] ∧
    ∀ globMatch rel,
      matchesIgnore globMatch ".git" rel (loadIgnorePatterns (some [])) = true :=
  loadIgnorePatterns_empty_defaults [] (by simp)

/- ===================================================================
   Store state model (internal/store/sqlite.go + schema.go)
   =================================================================== -/

/-- `store.FileRecord`.  The `IndexedAt` wall-clock timestamp is omitted:
real time is outside the model and no verified property mentions it. -/
structure FileRecord where
  id : Int
  path : String
  hash : String
  language : String
  sizeBytes : Nat
deriving Repr, DecidableEq

/-- The observable state of the SQLite database: the `files` and `chunks`
tables, the `vec_chunks` virtual table (chunk id → fixed-length float
vector), the `meta` key/value table, and the AUTOINCREMENT id counters.
Each store operation is a pure function of this state; SQLite's
transactional discipline is reflected by fallible operations returning
`Except` — an error leaves the state unchanged (rollback). -/
structure StoreState where
  files : List FileRecord
  chunks : List Chunk
  embeddings : List (Int × List Float)
  meta : List (String × String)
  nextFileId : Int
  nextChunkId : Int

/-- `vec_chunks … embedding float[768]` (schema.go). -/
def embeddingDim : Nat := 768

/-- `SQLiteStore.GetFileHash`: the stored hash, or "" when absent. -/
def GetFileHash (st : StoreState) (path : String) : String :=
  match st.files.find? (fun f => f.path == path) with
  | some f => f.hash
  | none => ""

/-- `SQLiteStore.GetMeta`: the stored value, or "" when absent. -/
def GetMeta (st : StoreState) (key : String) : String :=
  match st.meta.find? (fun kv => kv.1 == key) with
  | some kv => kv.2
  | none => ""

/-- `SQLiteStore.SetMeta`: `INSERT … ON CONFLICT(key) DO UPDATE`. -/
def SetMeta (st : StoreState) (key value : String) : StoreState :=
  if st.meta.any (fun kv => kv.1 == key) then
    { st with meta := st.meta.map (fun kv =>
        if kv.1 == key then (key, value) else kv) }
  else
    { st with meta := st.meta ++ [(key, value)] }

/-- `SQLiteStore.DeleteAllChunks`: one transaction emptying `vec_chunks`,
`chunks` and `files` (`meta` and the id sequences are untouched). -/
def DeleteAllChunks (st : StoreState) : StoreState :=
  { st with embeddings := [], chunks := [], files := [] }

/-- `SQLiteStore.UpsertFile`: if a record exists for the path, delete its
chunks' vector rows and chunks and update the record in place (keeping its
id); otherwise insert a fresh record.  Returns the file id. -/
def UpsertFile (st : StoreState) (f : FileRecord) : Int × StoreState :=
  match st.files.find? (fun r => r.path == f.path) with
  | some r =>
    let cids := (st.chunks.filter (fun c => c.fileId == r.id)).map
      (fun c => c.id)
    (r.id,
     { st with
        embeddings := st.embeddings.filter (fun e => !(cids.contains e.1)),
        chunks := st.chunks.filter (fun c => !(c.fileId == r.id)),
        files := st.files.map (fun q =>
          if q.path == f.path then
            { q with hash := f.hash, language := f.language,
                     sizeBytes := f.sizeBytes }
          else q) })
  | none =>
    (st.nextFileId,
     { st with
        files := st.files ++ [{ f with id := st.nextFileId }],
        nextFileId := st.nextFileId + 1 })

/-- The insert loop of `SQLiteStore.InsertChunks`: assign ids in input
order; an empty metadata blob defaults to `"{}"`. -/
def insertChunksLoop (st : StoreState) (fileID : Int) :
    List Chunk → List Int × StoreState
  | [] => ([], st)
  | c :: rest =>
    let cid := st.nextChunkId
    let meta := if c.metadata == "" then "{}" else c.metadata
    let st1 : StoreState :=
      { st with
          chunks := st.chunks ++
            [{ c with id := cid, fileId := fileID, metadata := meta }],
          nextChunkId := cid + 1 }
    let p := insertChunksLoop st1 fileID rest
    (cid :: p.1, p.2)

/-- `SQLiteStore.InsertChunks` (the model's id assignment never fails, so
the single transaction always commits). -/
def InsertChunks (st : StoreState) (fileID : Int) (chunks : List Chunk) :
    List Int × StoreState :=
  insertChunksLoop st fileID chunks

/-- The insert loop of `SQLiteStore.InsertEmbeddings`: each row insert into
`vec_chunks` fails when the vector's dimension differs from the declared
`float[768]` (sqlite-vec rejects the blob) or the chunk id collides with
the integer primary key. -/
def insertEmbeddingsLoop :
    List (Int × List Float) → List (Int × List Float) →
      Except String (List (Int × List Float))
  | tbl, [] => .ok tbl
  | tbl, (cid, v) :: rest =>
    if v.length ≠ embeddingDim then
      .error ("insert embedding for chunk " ++ toString cid ++
        ": dimension mismatch")
    else if (tbl.map (fun e => e.1)).contains cid then
      .error ("insert embedding for chunk " ++ toString cid ++
        ": duplicate chunk id")
    else insertEmbeddingsLoop (tbl ++ [(cid, v)]) rest

/-- `SQLiteStore.InsertEmbeddings`: fail fast on a length mismatch, then
insert each `(chunk id, vector)` pair inside one transaction; any row
failure rolls the whole transaction back (the input state is kept). -/
def InsertEmbeddings (st : StoreState) (chunkIDs : List Int)
    (embeddings : List (List Float)) : Except String StoreState :=
  if chunkIDs.length ≠ embeddings.length then
    .error ("mismatched chunk IDs (" ++ toString chunkIDs.length ++
      ") and embeddings (" ++ toString embeddings.length ++ ")")
  else
    match insertEmbeddingsLoop st.embeddings (chunkIDs.zip embeddings) with
    | .error e => .error e
    | .ok tbl => .ok { st with embeddings := tbl }

/-- A successful insert loop appended exactly its input pairs, and every
inserted vector had the declared dimension with a fresh, unique chunk id. -/
theorem insertEmbeddingsLoop_ok (pairs : List (Int × List Float))
    (tbl tbl' : List (Int × List Float))
    (h : insertEmbeddingsLoop tbl pairs = .ok tbl') :
    tbl' = tbl ++ pairs ∧
    (∀ pv ∈ pairs, pv.2.length = embeddingDim) ∧
    (pairs.map (fun pv => pv.1)).Nodup ∧
    (∀ pv ∈ pairs, pv.1 ∉ tbl.map (fun e => e.1)) := by
  induction pairs generalizing tbl with
  | nil =>
    simp only [insertEmbeddingsLoop] at h
    refine ⟨?_, by simp, by simp, by simp⟩
    rw [(Except.ok.inj h).symm]
    simp
  | cons pv rest ih =>
    rcases pv with ⟨cid, v⟩
    simp only [insertEmbeddingsLoop] at h
    by_cases h1 : v.length ≠ embeddingDim
    · rw [if_pos h1] at h
      exact absurd h (by simp)
    rw [if_neg h1] at h
    by_cases h2 : (tbl.map (fun e => e.1)).contains cid
    · rw [if_pos h2] at h
      exact absurd h (by simp)
    rw [if_neg h2] at h
    rcases ih (tbl ++ [(cid, v)]) h with ⟨heq, hdim, hnd, hfresh⟩
    refine ⟨by rw [heq]; simp, ?_, ?_, ?_⟩
    · intro qv hqv
      rcases List.mem_cons.1 hqv with rfl | hqv
      · simpa using h1
      · exact hdim qv hqv
    · rw [List.map_cons, List.nodup_cons]
      refine ⟨?_, hnd⟩
      intro hmem
      rcases List.mem_map.1 hmem with ⟨qv, hqv, hqid⟩
      have := hfresh qv hqv
      apply this
      rw [List.map_append, List.mem_append]
      right
      simp [hqid]
    · intro qv hqv
      rcases List.mem_cons.1 hqv with rfl | hqv
      · simpa using h2
      · intro hmem
        apply hfresh qv hqv
        rw [List.map_append, List.mem_append]
        exact Or.inl hmem

/-- A vector of the wrong dimension always makes the insert loop fail. -/
theorem insertEmbeddingsLoop_bad_dim (pairs : List (Int × List Float))
    (tbl : List (Int × List Float))
    (hbad : ∃ pv ∈ pairs, pv.2.length ≠ embeddingDim) :
    ∃ e, insertEmbeddingsLoop tbl pairs = .error e := by
  induction pairs generalizing tbl with
  | nil => simp at hbad
  | cons pv rest ih =>
    rcases pv with ⟨cid, v⟩
    simp only [insertEmbeddingsLoop]
    by_cases h1 : v.length ≠ embeddingDim
    · rw [if_pos h1]
      exact ⟨_, rfl⟩
    rw [if_neg h1]
    by_cases h2 : (tbl.map (fun e => e.1)).contains cid
    · rw [if_pos h2]
      exact ⟨_, rfl⟩
    rw [if_neg h2]
    apply ih
    rcases hbad with ⟨qv, hqv, hqbad⟩
    rcases List.mem_cons.1 hqv with rfl | hqv
    · exact absurd hqbad (by simpa using h1)
    · exact ⟨qv, hqv, hqbad⟩

/-- Each member of the right list of a length-matched zip appears in some
pair. -/
theorem mem_zip_right (l1 : List Int) (l2 : List (List Float))
    (hlen : l1.length = l2.length) :
    ∀ v ∈ l2, ∃ a, (a, v) ∈ l1.zip l2 := by
  induction l1 generalizing l2 with
  | nil =>
    match l2, hlen with
    | [], _ => simp
  | cons a t ih =>
    match l2, hlen with
    | v2 :: t2, hlen =>
      intro v hv
      rcases List.mem_cons.1 hv with rfl | hv
      · exact ⟨a, by simp⟩
      · rcases ih t2 (by simpa using hlen) v hv with ⟨b, hb⟩
        exact ⟨b, List.mem_cons_of_mem _ hb⟩

/-- C9: `InsertEmbeddings` fails when the id and vector lists have
different lengths or any vector's dimension differs from the configured
768 (and, the state being returned only on success, an error leaves the
vector index unchanged — the transaction rolls back); on success it
appends exactly one embedding per chunk id, the chunk ids being pairwise
distinct, and leaves files, chunks and metadata untouched. -/
theorem InsertEmbeddings_spec (st : StoreState) (chunkIDs : List Int)
    (embeddings : List (List Float)) :
    (chunkIDs.length ≠ embeddings.length →
        ∃ e, InsertEmbeddings st chunkIDs embeddings = .error e) ∧
    ((∃ v ∈ embeddings, v.length ≠ embeddingDim) →
        ∃ e, InsertEmbeddings st chunkIDs embeddings = .error e) ∧
    (∀ st', InsertEmbeddings st chunkIDs embeddings = .ok st' →
        chunkIDs.length = embeddings.length ∧
        (∀ v ∈ embeddings, v.length = embeddingDim) ∧
        chunkIDs.Nodup ∧
        st'.embeddings = st.embeddings ++ chunkIDs.zip embeddings ∧
        st'.files = st.files ∧ st'.chunks = st.chunks ∧
        st'.meta = st.meta) := by
  refine ⟨?_, ?_, ?_⟩
  · intro hne
    rw [InsertEmbeddings, if_pos hne]
    exact ⟨_, rfl⟩
  · intro hbad
    by_cases hlen : chunkIDs.length ≠ embeddings.length
    · rw [InsertEmbeddings, if_pos hlen]
      exact ⟨_, rfl⟩
    · rw [InsertEmbeddings, if_neg hlen]
      have hlen' : chunkIDs.length = embeddings.length := by omega
      have hzip : ∃ pv ∈ chunkIDs.zip embeddings,
          pv.2.length ≠ embeddingDim := by
        rcases hbad with ⟨v, hv, hvbad⟩
        rcases mem_zip_right chunkIDs embeddings hlen' v hv with ⟨a, ha⟩
        exact ⟨(a, v), ha, hvbad⟩
      rcases insertEmbeddingsLoop_bad_dim (chunkIDs.zip embeddings)
        st.embeddings hzip with ⟨e, he⟩
      rw [he]
      exact ⟨e, rfl⟩
  · intro st' hok
    by_cases hlen : chunkIDs.length ≠ embeddings.length
    · rw [InsertEmbeddings, if_pos hlen] at hok
      exact absurd hok (by simp)
    rw [InsertEmbeddings, if_neg hlen] at hok
    have hlen' : chunkIDs.length = embeddings.length := by omega
    rcases hloop : insertEmbeddingsLoop st.embeddings
        (chunkIDs.zip embeddings) with e | tbl
    · rw [hloop] at hok
      exact absurd hok (by simp)
    rw [hloop] at hok
    have hst : st' = { st with embeddings := tbl } := (Except.ok.inj hok).symm
    rcases insertEmbeddingsLoop_ok (chunkIDs.zip embeddings) st.embeddings
      tbl hloop with ⟨heq, hdim, hnd, _⟩
    refine ⟨hlen', ?_, ?_, ?_, ?_, ?_, ?_⟩
    · intro v hv
      rcases mem_zip_right chunkIDs embeddings hlen' v hv with ⟨a, ha⟩
      exact hdim (a, v) ha
    · have hmap : (chunkIDs.zip embeddings).map (fun pv => pv.1) =
          chunkIDs := by
        rw [show (fun pv : Int × List Float => pv.1) = Prod.fst from rfl]
        exact List.map_fst_zip chunkIDs embeddings (by omega)
      rw [← hmap]
      exact hnd
    · rw [hst, heq]
    · rw [hst]
    · rw [hst]
    · rw [hst]

/-- The empty database, as `store.Open` creates it. -/
def emptyStore : StoreState := ⟨[], [], [], [], 1, 1⟩

/-- Witness for C9: a length mismatch (one chunk id, no vectors) on the
fresh store fails. -/
theorem InsertEmbeddings_spec_witness :
    ∃ e, InsertEmbeddings emptyStore [1] [] = .error e :=
  (InsertEmbeddings_spec emptyStore [1] []).1 (by decide)

/- ===================================================================
   Indexing pipeline (internal/index/pipeline.go, runPipeline) —
   sequential semantics of the staged pipeline
   =================================================================== -/

/-- `index.Stats`. -/
structure PipeStats where
  filesTotal : Nat
  filesIndexed : Nat
  filesSkipped : Nat
  chunksTotal : Nat
deriving Repr, DecidableEq

/-- The pipeline's running state, threading the store and the counters.
`embedErr` models the embed stage having aborted (after which no further
file is embedded or persisted); `storeErr` the last recorded persistence
error.  `hashSkips` is a ghost counter, absent from the Go code: it counts
the files dropped at the hash stage because their SHA-256 matched the
stored hash, and is read by no pipeline output — it exists only to state
what `FilesSkipped` would have to equal were it counting unchanged files. -/
structure PipeState where
  st : StoreState
  filesTotal : Nat
  filesIndexed : Nat
  chunksTotal : Nat
  embedErr : Option String
  storeErr : Option String
  hashSkips : Nat

/-- `const embedBatchSize = 32` -/
def embedBatchSize : Nat := 32

/-- The embed stage's sub-batch loop: embed `texts[i:i+32]`, abort on the
first error, concatenate the results in order. -/
def embedAllLoop (embedFn : List String → Except String (List (List Float)))
    (texts : List String) (i : Nat) : Except String (List (List Float)) :=
  if h : i < texts.length then
    match embedFn ((texts.drop i).take embedBatchSize) with
    | .error e => .error e
    | .ok embs =>
      match embedAllLoop embedFn texts (i + embedBatchSize) with
      | .error e => .error e
      | .ok rest => .ok (embs ++ rest)
  else .ok []
termination_by texts.length - i
decreasing_by simp only [embedBatchSize]; omega

/-- All of one file's chunk contents, embedded in sub-batches of 32. -/
def embedAllFile (embedFn : List String → Except String (List (List Float)))
    (texts : List String) : Except String (List (List Float)) :=
  embedAllLoop embedFn texts 0

/-- The persist stage for one file: `UpsertFile` → `InsertChunks` →
`InsertEmbeddings`; a store error is recorded and the pipeline moves on. -/
def persistFile (ps : PipeState) (path hash lang : String) (size : Nat)
    (chunks : List RawChunk) (vecs : List (List Float)) : PipeState :=
  let up := UpsertFile ps.st ⟨0, path, hash, lang, size⟩
  let ins := InsertChunks up.2 up.1 (chunks.map (fun c =>
    ⟨0, 0, c.name, c.kind, c.startLine, c.endLine, c.content, ""⟩))
  match InsertEmbeddings ins.2 ins.1 vecs with
  | .error e => { ps with st := ins.2, storeErr := some e }
  | .ok st1 =>
    { ps with
        st := st1
        filesIndexed := ps.filesIndexed + 1
        chunksTotal := ps.chunksTotal + chunks.length }

/-- One walked file `(relPath, src)` through the hash, chunk, embed and
persist stages, sequentially: hash it and drop it if the stored hash
matches (counting the ghost `hashSkips`); chunk it and drop it on a
chunker error or zero chunks; if the embed stage has not aborted, embed
(recording the first error, which aborts the stage) and persist.
SHA-256, the language registry, the chunker and the embedding service are
the deterministic function parameters. -/
def fileStages (hashFn : String → String) (langFn : String → String)
    (chunkFn : String → String → Except String (List RawChunk))
    (embedFn : List String → Except String (List (List Float)))
    (ps : PipeState) (file : String × String) : PipeState :=
  if GetFileHash ps.st file.1 = hashFn file.2 then
    { ps with hashSkips := ps.hashSkips + 1 }
  else
    match chunkFn file.1 file.2 with
    | .error _ => ps
    | .ok chunks =>
      if chunks.length = 0 then ps
      else if ps.embedErr.isSome then ps
      else
        match embedAllFile embedFn (chunks.map (fun c => c.content)) with
        | .error e => { ps with embedErr := some e }
        | .ok vecs =>
          persistFile ps file.1 (hashFn file.2) (langFn file.1)
            file.2.utf8ByteSize chunks vecs

/-- One walked file, with the `filesTotal` counter bumped first
(`filesTotal.Add(1)` in the Go hash stage). -/
def processFile (hashFn : String → String) (langFn : String → String)
    (chunkFn : String → String → Except String (List RawChunk))
    (embedFn : List String → Except String (List (List Float)))
    (ps : PipeState) (file : String × String) : PipeState :=
  fileStages hashFn langFn chunkFn embedFn
    { ps with filesTotal := ps.filesTotal + 1 } file

/-- The error `runPipeline` returns: the embed error takes precedence,
then the last store error. -/
def pipelineErr (ps : PipeState) : Option String :=
  match ps.embedErr with
  | some e => some e
  | none => ps.storeErr

/-- `index.runPipeline` collapsed to its sequential semantics: the walked
files (in walker order) flow through hash, chunk, embed and persist;
`FilesSkipped` is computed as `FilesTotal - FilesIndexed`.  Returns the
stats and the final pipeline state (store, ghost counter, errors). -/
def runPipeline (hashFn : String → String) (langFn : String → String)
    (chunkFn : String → String → Except String (List RawChunk))
    (embedFn : List String → Except String (List (List Float)))
    (files : List (String × String)) (st : StoreState) :
    PipeStats × PipeState :=
  let ps := files.foldl (processFile hashFn langFn chunkFn embedFn)
    ⟨st, 0, 0, 0, none, none, 0⟩
  (⟨ps.filesTotal, ps.filesIndexed, ps.filesTotal - ps.filesIndexed,
    ps.chunksTotal⟩, ps)

/-- `persistFile` never touches `filesTotal`, `hashSkips` or `embedErr`,
and counts at most one indexed file. -/
theorem persistFile_counts (ps : PipeState) (path hash lang : String)
    (size : Nat) (chunks : List RawChunk) (vecs : List (List Float)) :
    (persistFile ps path hash lang size chunks vecs).filesTotal =
      ps.filesTotal ∧
    (persistFile ps path hash lang size chunks vecs).hashSkips =
      ps.hashSkips ∧
    (persistFile ps path hash lang size chunks vecs).embedErr =
      ps.embedErr ∧
    ps.filesIndexed ≤
      (persistFile ps path hash lang size chunks vecs).filesIndexed ∧
    (persistFile ps path hash lang size chunks vecs).filesIndexed ≤
      ps.filesIndexed + 1 := by
  simp only [persistFile]
  split
  · exact ⟨rfl, rfl, rfl, Nat.le_refl _, Nat.le_succ _⟩
  · exact ⟨rfl, rfl, rfl, Nat.le_succ _, Nat.le_refl _⟩

/-- Each stage step counts at most one of `hashSkips`/`filesIndexed` and
never touches `filesTotal`. -/
theorem fileStages_counts (hashFn langFn : String → String)
    (chunkFn : String → String → Except String (List RawChunk))
    (embedFn : List String → Except String (List (List Float)))
    (ps : PipeState) (file : String × String) :
    (fileStages hashFn langFn chunkFn embedFn ps file).filesTotal =
      ps.filesTotal ∧
    (fileStages hashFn langFn chunkFn embedFn ps file).hashSkips +
        (fileStages hashFn langFn chunkFn embedFn ps file).filesIndexed ≤
      ps.hashSkips + ps.filesIndexed + 1 := by
  unfold fileStages
  by_cases h1 : GetFileHash ps.st file.1 = hashFn file.2
  · rw [if_pos h1]
    exact ⟨rfl, by dsimp only; omega⟩
  rw [if_neg h1]
  cases hc : chunkFn file.1 file.2 with
  | error e => exact ⟨rfl, by dsimp only; omega⟩
  | ok chunks =>
    dsimp only
    by_cases h2 : chunks.length = 0
    · rw [if_pos h2]
      exact ⟨rfl, by omega⟩
    rw [if_neg h2]
    by_cases h3 : ps.embedErr.isSome
    · rw [if_pos h3]
      exact ⟨rfl, by omega⟩
    rw [if_neg h3]
    cases he : embedAllFile embedFn (chunks.map (fun c => c.content)) with
    | error e => exact ⟨rfl, by dsimp only; omega⟩
    | ok vecs =>
      dsimp only
      rcases persistFile_counts ps file.1 (hashFn file.2) (langFn file.1)
        file.2.utf8ByteSize chunks vecs with ⟨hA, hB, _, hC, hD⟩
      exact ⟨hA, by omega⟩

/-- Over a run, `filesTotal` counts the walked files and
`hashSkips + filesIndexed` never exceeds it. -/
theorem foldl_counts (hashFn langFn : String → String)
    (chunkFn : String → String → Except String (List RawChunk))
    (embedFn : List String → Except String (List (List Float)))
    (files : List (String × String)) :
    ∀ ps : PipeState,
      (files.foldl (processFile hashFn langFn chunkFn embedFn) ps).filesTotal =
        ps.filesTotal + files.length ∧
      (files.foldl (processFile hashFn langFn chunkFn embedFn) ps).hashSkips +
          (files.foldl (processFile hashFn langFn chunkFn embedFn)
            ps).filesIndexed ≤
        ps.hashSkips + ps.filesIndexed + files.length := by
  induction files with
  | nil =>
    intro ps
    simp
  | cons f rest ih =>
    intro ps
    rw [List.foldl_cons]
    rcases ih (processFile hashFn langFn chunkFn embedFn ps f) with ⟨h1, h2⟩
    have hpc : processFile hashFn langFn chunkFn embedFn ps f =
        fileStages hashFn langFn chunkFn embedFn
          { ps with filesTotal := ps.filesTotal + 1 } f := rfl
    rcases fileStages_counts hashFn langFn chunkFn embedFn
      { ps with filesTotal := ps.filesTotal + 1 } f with ⟨hc1, hc2⟩
    rw [← hpc] at hc1 hc2
    dsimp only at hc1 hc2
    constructor
    · rw [h1, hc1]
      simp only [List.length_cons]
      omega
    · simp only [List.length_cons]
      omega

/-- C8 (amended): in the stats `runPipeline` returns, `filesSkipped` is
computed as `filesTotal - filesIndexed` — it counts every discovered file
not persisted this run (read errors, chunker errors, zero-chunk files,
embed-stage aborts and persistence failures included), not only the files
dropped at the hash stage for an unchanged SHA-256, whose (ghost) count
never exceeds it. -/
theorem runPipeline_skipped_amended (hashFn langFn : String → String)
    (chunkFn : String → String → Except String (List RawChunk))
    (embedFn : List String → Except String (List (List Float)))
    (files : List (String × String)) (st0 : StoreState) :
    (runPipeline hashFn langFn chunkFn embedFn files st0).1.filesSkipped =
      (runPipeline hashFn langFn chunkFn embedFn files st0).1.filesTotal -
        (runPipeline hashFn langFn chunkFn embedFn files st0).1.filesIndexed ∧
    (runPipeline hashFn langFn chunkFn embedFn files st0).2.hashSkips +
        (runPipeline hashFn langFn chunkFn embedFn files st0).1.filesIndexed ≤
      (runPipeline hashFn langFn chunkFn embedFn files st0).1.filesTotal := by
  refine ⟨rfl, ?_⟩
  rcases foldl_counts hashFn langFn chunkFn embedFn files
    ⟨st0, 0, 0, 0, none, none, 0⟩ with ⟨h1, h2⟩
  dsimp only at h1 h2
  show (files.foldl (processFile hashFn langFn chunkFn embedFn)
      ⟨st0, 0, 0, 0, none, none, 0⟩).hashSkips +
    (files.foldl (processFile hashFn langFn chunkFn embedFn)
      ⟨st0, 0, 0, 0, none, none, 0⟩).filesIndexed ≤
    (files.foldl (processFile hashFn langFn chunkFn embedFn)
      ⟨st0, 0, 0, 0, none, none, 0⟩).filesTotal
  omega

/-- C8 (counterexample): one discovered file that hashes as changed but
yields zero chunks — `files_skipped = 1` although no file was dropped at
the hash stage for an unchanged hash (`hashSkips = 0`). -/
theorem runPipeline_skipped_counterexample :
    (runPipeline (fun s => s) (fun _ => "go") (fun _ _ => .ok [])
        (fun _ => .ok []) [("a.go", "package a")] emptyStore).1.filesSkipped
      = 1 ∧
    (runPipeline (fun s => s) (fun _ => "go") (fun _ _ => .ok [])
        (fun _ => .ok []) [("a.go", "package a")] emptyStore).2.hashSkips
      = 0 := by
  constructor <;> rfl

/- ===================================================================
   Indexer (internal/index/indexer.go, Indexer.Index)
   =================================================================== -/

/-- The model-change check `Indexer.Index` performs before the pipeline:
when the recorded `embedding_model` is non-empty and differs from the
configured model, purge everything with `DeleteAllChunks`. -/
def indexPrePipeline (cfgModel : String) (st : StoreState) : StoreState :=
  if GetMeta st "embedding_model" ≠ "" ∧
      GetMeta st "embedding_model" ≠ cfgModel then
    DeleteAllChunks st
  else st

/-- `Indexer.Index`: model-change check, pipeline, then (only on a run
without a pipeline error) record the configured model under
`embedding_model`.  The post-run summarizer and overview generation touch
only file summaries and an external file, not the verified state, and are
omitted. -/
def IndexerIndex (hashFn langFn : String → String)
    (chunkFn : String → String → Except String (List RawChunk))
    (embedFn : List String → Except String (List (List Float)))
    (cfgModel : String) (files : List (String × String)) (st : StoreState) :
    Except String (PipeStats × StoreState) :=
  let st1 := indexPrePipeline cfgModel st
  let r := runPipeline hashFn langFn chunkFn embedFn files st1
  match pipelineErr r.2 with
  | some e => .error e
  | none => .ok (r.1, SetMeta r.2.st "embedding_model" cfgModel)

theorem find_setMeta_map (l : List (String × String)) (k v : String)
    (h : l.any (fun kv => kv.1 == k)) :
    (l.map (fun kv => if kv.1 == k then (k, v) else kv)).find?
      (fun kv => kv.1 == k) = some (k, v) := by
  induction l with
  | nil => simp at h
  | cons kv t ih =>
    by_cases hk : kv.1 == k
    · simp only [List.map_cons, if_pos hk]
      rw [List.find?_cons_of_pos]
      simp
    · simp only [List.map_cons, if_neg hk]
      rw [List.find?_cons_of_neg _ (by simpa using hk)]
      apply ih
      simp only [List.any_cons, Bool.or_eq_true] at h
      rcases h with h | h
      · exact absurd h hk
      · exact h

theorem find_setMeta_append (l : List (String × String)) (k v : String) :
    (l ++ [(k, v)]).find? (fun kv => kv.1 == k) = some (k, v) ∨
      ∃ kv, l.find? (fun kv => kv.1 == k) = some kv ∧
        (l ++ [(k, v)]).find? (fun kv => kv.1 == k) = some kv := by
  induction l with
  | nil =>
    left
    simp [List.find?]
  | cons kv t ih =>
    by_cases hk : kv.1 == k
    · right
      refine ⟨kv, ?_, ?_⟩
      · exact @List.find?_cons_of_pos _ (fun kv => kv.1 == k) kv t hk
      · rw [List.cons_append]
        exact @List.find?_cons_of_pos _ (fun kv => kv.1 == k) kv
          (t ++ [(k, v)]) hk
    · rw [List.cons_append,
        @List.find?_cons_of_neg _ (fun kv => kv.1 == k) kv (t ++ [(k, v)])
          (by simpa using hk),
        @List.find?_cons_of_neg _ (fun kv => kv.1 == k) kv t
          (by simpa using hk)]
      exact ih

/-- `GetMeta` after `SetMeta` on the same key reads back the value. -/
theorem GetMeta_SetMeta (st : StoreState) (k v : String) :
    GetMeta (SetMeta st k v) k = v := by
  unfold GetMeta SetMeta
  by_cases h : st.meta.any (fun kv => kv.1 == k)
  · rw [if_pos h]
    dsimp only
    rw [find_setMeta_map st.meta k v h]
  · rw [if_neg h]
    dsimp only
    rcases find_setMeta_append st.meta k v with hf | ⟨kv, hkv, _⟩
    · rw [hf]
    · exfalso
      apply h
      have hp := List.find?_some hkv
      have hm := List.mem_of_find?_eq_some hkv
      exact List.any_eq_true.2 ⟨kv, hm, hp⟩

/-- C6: the model-change protocol of `Indexer.Index`.  When the stored
`embedding_model` is non-empty and differs from the configured model, the
store handed to the pipeline has no files, chunks or embeddings
(`DeleteAllChunks` ran first); and any successful run records the
configured model under `embedding_model`. -/
theorem Index_model_change (hashFn langFn : String → String)
    (chunkFn : String → String → Except String (List RawChunk))
    (embedFn : List String → Except String (List (List Float)))
    (cfgModel : String) (files : List (String × String)) (st : StoreState) :
    ((GetMeta st "embedding_model" ≠ "" ∧
      GetMeta st "embedding_model" ≠ cfgModel) →
        (indexPrePipeline cfgModel st).files = [] ∧
        (indexPrePipeline cfgModel st).chunks = [] ∧
        (indexPrePipeline cfgModel st).embeddings = []) ∧
    (∀ stats st',
        IndexerIndex hashFn langFn chunkFn embedFn cfgModel files st =
          .ok (stats, st') →
        GetMeta st' "embedding_model" = cfgModel) := by
  constructor
  · intro h
    rw [indexPrePipeline, if_pos h]
    exact ⟨rfl, rfl, rfl⟩
  · intro stats st' hok
    unfold IndexerIndex at hok
    dsimp only at hok
    split at hok
    · exact absurd hok (by simp)
    · rw [Except.ok.injEq, Prod.mk.injEq] at hok
      rw [← hok.2]
      exact GetMeta_SetMeta _ _ _

/-- A store that was last indexed under a different embedding model. -/
def demoMetaStore : StoreState :=
  { emptyStore with meta := [("embedding_model", "modelA")] }

/-- Witness for C6: with stored model `"modelA"` and configured model
`"modelB"`, the pre-pipeline store is purged. -/
theorem Index_model_change_witness :
    (indexPrePipeline "modelB" demoMetaStore).files = [] ∧
    (indexPrePipeline "modelB" demoMetaStore).chunks = [] ∧
    (indexPrePipeline "modelB" demoMetaStore).embeddings = [] :=
  (Index_model_change (fun s => s) (fun _ => "go") (fun _ _ => .ok [])
      (fun _ => .ok []) "modelB" [] demoMetaStore).1
    ⟨by decide, by decide⟩

/- ===================================================================
   Frame lemmas for the idempotence proof (C7)
   =================================================================== -/

theorem GetFileHash_congr (st1 st2 : StoreState) (h : st1.files = st2.files)
    (p : String) : GetFileHash st1 p = GetFileHash st2 p := by
  unfold GetFileHash
  rw [h]

theorem find_upsert_map (l : List FileRecord) (f : FileRecord) (r : FileRecord)
    (h : l.find? (fun q => q.path == f.path) = some r) :
    (l.map (fun q => if q.path == f.path then
        { q with hash := f.hash, language := f.language,
                 sizeBytes := f.sizeBytes } else q)).find?
      (fun q => q.path == f.path) =
      some { r with hash := f.hash, language := f.language,
                    sizeBytes := f.sizeBytes } := by
  induction l with
  | nil => simp [List.find?] at h
  | cons q t ih =>
    by_cases hq : (q.path == f.path) = true
    · rw [@List.find?_cons_of_pos FileRecord (fun q => q.path == f.path) q t hq] at h
      rw [Option.some.injEq] at h
      subst h
      rw [List.map_cons, if_pos hq]
      exact @List.find?_cons_of_pos FileRecord (fun q => q.path == f.path) _ _ hq
    · rw [@List.find?_cons_of_neg FileRecord (fun q => q.path == f.path) q t hq] at h
      rw [List.map_cons, if_neg hq]
      rw [@List.find?_cons_of_neg FileRecord (fun q => q.path == f.path) q _ hq]
      exact ih h

theorem find?_cons_path_pos (a : FileRecord) (l : List FileRecord)
    (p : String) (h : (a.path == p) = true) :
    (a :: l).find? (fun q => q.path == p) = some a :=
  List.find?_cons_of_pos l h

theorem find?_cons_path_neg (a : FileRecord) (l : List FileRecord)
    (p : String) (h : (a.path == p) = false) :
    (a :: l).find? (fun q => q.path == p) = l.find? (fun q => q.path == p) :=
  List.find?_cons_of_neg l (by simp [h])

theorem find_upsert_map_other (l : List FileRecord) (f : FileRecord)
    (p : String) (hne : p ≠ f.path) :
    (l.map (fun q => if q.path == f.path then
        { q with hash := f.hash, language := f.language,
                 sizeBytes := f.sizeBytes } else q)).find?
      (fun q => q.path == p) = l.find? (fun q => q.path == p) := by
  induction l with
  | nil => simp
  | cons q t ih =>
    rw [List.map_cons]
    by_cases hq : (q.path == f.path) = true
    · have hqp : (q.path == p) = false := by
        rw [beq_iff_eq] at hq
        rw [beq_eq_false_iff_ne, hq]
        exact fun hcon => hne hcon.symm
      rw [if_pos hq]
      rw [find?_cons_path_neg
        { q with hash := f.hash, language := f.language,
                 sizeBytes := f.sizeBytes } _ p hqp]
      rw [find?_cons_path_neg q t p hqp]
      exact ih
    · rw [if_neg hq]
      by_cases hqp : (q.path == p) = true
      · rw [find?_cons_path_pos q _ p hqp, find?_cons_path_pos q t p hqp]
      · rw [find?_cons_path_neg q _ p (Bool.eq_false_iff.2 hqp),
          find?_cons_path_neg q t p (Bool.eq_false_iff.2 hqp)]
        exact ih

theorem find_append_one (l : List FileRecord) (x : FileRecord)
    (pred : FileRecord → Bool) :
    (l ++ [x]).find? pred =
      match l.find? pred with
      | some r => some r
      | none => [x].find? pred := by
  induction l with
  | nil => simp
  | cons a t ih =>
    by_cases ha : pred a = true
    · rw [List.cons_append, List.find?_cons_of_pos _ ha,
        List.find?_cons_of_pos _ ha]
    · rw [List.cons_append, List.find?_cons_of_neg _ ha,
        List.find?_cons_of_neg _ ha]
      exact ih

/-- After `UpsertFile`, the stored hash of the upserted path is the new
hash. -/
theorem UpsertFile_hash_self (st : StoreState) (f : FileRecord) :
    GetFileHash (UpsertFile st f).2 f.path = f.hash := by
  unfold UpsertFile
  cases hf : st.files.find? (fun r => r.path == f.path) with
  | some r =>
    dsimp only
    unfold GetFileHash
    dsimp only
    rw [find_upsert_map st.files f r hf]
  | none =>
    dsimp only
    unfold GetFileHash
    dsimp only
    rw [find_append_one st.files _ (fun q => q.path == f.path), hf]
    dsimp only
    rw [find?_cons_path_pos { f with id := st.nextFileId } [] f.path
      (by simp)]

/-- `UpsertFile` does not change the stored hash of any other path. -/
theorem UpsertFile_hash_other (st : StoreState) (f : FileRecord) (p : String)
    (hne : p ≠ f.path) :
    GetFileHash (UpsertFile st f).2 p = GetFileHash st p := by
  unfold UpsertFile
  cases hf : st.files.find? (fun r => r.path == f.path) with
  | some r =>
    dsimp only
    unfold GetFileHash
    dsimp only
    rw [find_upsert_map_other st.files f p hne]
  | none =>
    dsimp only
    unfold GetFileHash
    dsimp only
    rw [find_append_one st.files _ (fun q => q.path == p)]
    cases hp : st.files.find? (fun q => q.path == p) with
    | some r => rfl
    | none =>
      dsimp only
      rw [find?_cons_path_neg { f with id := st.nextFileId } [] p
        (by rw [beq_eq_false_iff_ne]; exact fun hcon => hne hcon.symm)]
      rfl

/-- The chunk-insert loop never touches `files`, `embeddings` or `meta`. -/
theorem insertChunksLoop_state (fileID : Int) (cs : List Chunk) :
    ∀ st : StoreState,
      (insertChunksLoop st fileID cs).2.files = st.files ∧
      (insertChunksLoop st fileID cs).2.embeddings = st.embeddings ∧
      (insertChunksLoop st fileID cs).2.meta = st.meta := by
  induction cs with
  | nil => intro st; exact ⟨rfl, rfl, rfl⟩
  | cons c rest ih =>
    intro st
    simp only [insertChunksLoop]
    exact ih _

theorem InsertChunks_state (st : StoreState) (fileID : Int)
    (cs : List Chunk) :
    (InsertChunks st fileID cs).2.files = st.files ∧
    (InsertChunks st fileID cs).2.embeddings = st.embeddings ∧
    (InsertChunks st fileID cs).2.meta = st.meta :=
  insertChunksLoop_state fileID cs st

/-- A successful `InsertEmbeddings` only grows the vector table. -/
theorem InsertEmbeddings_ok_shape (st : StoreState) (ids : List Int)
    (vecs : List (List Float)) (st' : StoreState)
    (h : InsertEmbeddings st ids vecs = .ok st') :
    st'.files = st.files ∧ st'.chunks = st.chunks ∧ st'.meta = st.meta := by
  unfold InsertEmbeddings at h
  split at h
  · exact absurd h (by simp)
  · split at h
    · exact absurd h (by simp)
    · rw [Except.ok.injEq] at h
      rw [← h]
      exact ⟨rfl, rfl, rfl⟩

/-- Persisting a file stores its hash (whether or not the final embedding
insert succeeds — `UpsertFile` and `InsertChunks` committed). -/
theorem persistFile_hash_self (ps : PipeState) (path hash lang : String)
    (size : Nat) (chunks : List RawChunk) (vecs : List (List Float)) :
    GetFileHash (persistFile ps path hash lang size chunks vecs).st path =
      hash := by
  simp only [persistFile]
  have hup : GetFileHash (UpsertFile ps.st
      ⟨0, path, hash, lang, size⟩).2 path = hash :=
    UpsertFile_hash_self ps.st ⟨0, path, hash, lang, size⟩
  have hins := InsertChunks_state
    (UpsertFile ps.st ⟨0, path, hash, lang, size⟩).2
    (UpsertFile ps.st ⟨0, path, hash, lang, size⟩).1
    (chunks.map (fun c =>
      ⟨0, 0, c.name, c.kind, c.startLine, c.endLine, c.content, ""⟩))
  split
  · dsimp only
    rw [GetFileHash_congr _ _ hins.1]
    exact hup
  · rename_i st1 hok
    dsimp only
    rcases InsertEmbeddings_ok_shape _ _ _ _ hok with ⟨hfiles, _, _⟩
    rw [GetFileHash_congr _ _ hfiles, GetFileHash_congr _ _ hins.1]
    exact hup

/-- Persisting a file leaves every other path's stored hash unchanged. -/
theorem persistFile_hash_other (ps : PipeState) (path hash lang : String)
    (size : Nat) (chunks : List RawChunk) (vecs : List (List Float))
    (p : String) (hne : p ≠ path) :
    GetFileHash (persistFile ps path hash lang size chunks vecs).st p =
      GetFileHash ps.st p := by
  simp only [persistFile]
  have hup : GetFileHash (UpsertFile ps.st
      ⟨0, path, hash, lang, size⟩).2 p = GetFileHash ps.st p :=
    UpsertFile_hash_other ps.st ⟨0, path, hash, lang, size⟩ p hne
  have hins := InsertChunks_state
    (UpsertFile ps.st ⟨0, path, hash, lang, size⟩).2
    (UpsertFile ps.st ⟨0, path, hash, lang, size⟩).1
    (chunks.map (fun c =>
      ⟨0, 0, c.name, c.kind, c.startLine, c.endLine, c.content, ""⟩))
  split
  · dsimp only
    rw [GetFileHash_congr _ _ hins.1]
    exact hup
  · rename_i st1 hok
    dsimp only
    rcases InsertEmbeddings_ok_shape _ _ _ _ hok with ⟨hfiles, _, _⟩
    rw [GetFileHash_congr _ _ hfiles, GetFileHash_congr _ _ hins.1]
    exact hup

/- Branch-computation lemmas for `fileStages`. -/

theorem fileStages_skip (hashFn langFn : String → String)
    (chunkFn : String → String → Except String (List RawChunk))
    (embedFn : List String → Except String (List (List Float)))
    (ps : PipeState) (file : String × String)
    (h : GetFileHash ps.st file.1 = hashFn file.2) :
    fileStages hashFn langFn chunkFn embedFn ps file =
      { ps with hashSkips := ps.hashSkips + 1 } := by
  unfold fileStages
  rw [if_pos h]

theorem fileStages_chunkErr (hashFn langFn : String → String)
    (chunkFn : String → String → Except String (List RawChunk))
    (embedFn : List String → Except String (List (List Float)))
    (ps : PipeState) (file : String × String) (e : String)
    (h : GetFileHash ps.st file.1 ≠ hashFn file.2)
    (hc : chunkFn file.1 file.2 = .error e) :
    fileStages hashFn langFn chunkFn embedFn ps file = ps := by
  unfold fileStages
  rw [if_neg h, hc]

theorem fileStages_zero (hashFn langFn : String → String)
    (chunkFn : String → String → Except String (List RawChunk))
    (embedFn : List String → Except String (List (List Float)))
    (ps : PipeState) (file : String × String) (chunks : List RawChunk)
    (h : GetFileHash ps.st file.1 ≠ hashFn file.2)
    (hc : chunkFn file.1 file.2 = .ok chunks)
    (hlen : chunks.length = 0) :
    fileStages hashFn langFn chunkFn embedFn ps file = ps := by
  unfold fileStages
  rw [if_neg h, hc]
  dsimp only
  rw [if_pos hlen]

theorem fileStages_flagSkip (hashFn langFn : String → String)
    (chunkFn : String → String → Except String (List RawChunk))
    (embedFn : List String → Except String (List (List Float)))
    (ps : PipeState) (file : String × String) (chunks : List RawChunk)
    (h : GetFileHash ps.st file.1 ≠ hashFn file.2)
    (hc : chunkFn file.1 file.2 = .ok chunks)
    (hlen : ¬ chunks.length = 0)
    (hflag : ps.embedErr.isSome = true) :
    fileStages hashFn langFn chunkFn embedFn ps file = ps := by
  unfold fileStages
  rw [if_neg h, hc]
  dsimp only
  rw [if_neg hlen, if_pos hflag]

theorem fileStages_embedError (hashFn langFn : String → String)
    (chunkFn : String → String → Except String (List RawChunk))
    (embedFn : List String → Except String (List (List Float)))
    (ps : PipeState) (file : String × String) (chunks : List RawChunk)
    (e : String)
    (h : GetFileHash ps.st file.1 ≠ hashFn file.2)
    (hc : chunkFn file.1 file.2 = .ok chunks)
    (hlen : ¬ chunks.length = 0)
    (hflag : ¬ ps.embedErr.isSome = true)
    (he : embedAllFile embedFn (chunks.map (fun c => c.content)) = .error e) :
    fileStages hashFn langFn chunkFn embedFn ps file =
      { ps with embedErr := some e } := by
  unfold fileStages
  rw [if_neg h, hc]
  dsimp only
  rw [if_neg hlen, if_neg hflag, he]

theorem fileStages_persist (hashFn langFn : String → String)
    (chunkFn : String → String → Except String (List RawChunk))
    (embedFn : List String → Except String (List (List Float)))
    (ps : PipeState) (file : String × String) (chunks : List RawChunk)
    (vecs : List (List Float))
    (h : GetFileHash ps.st file.1 ≠ hashFn file.2)
    (hc : chunkFn file.1 file.2 = .ok chunks)
    (hlen : ¬ chunks.length = 0)
    (hflag : ¬ ps.embedErr.isSome = true)
    (he : embedAllFile embedFn (chunks.map (fun c => c.content)) = .ok vecs) :
    fileStages hashFn langFn chunkFn embedFn ps file =
      persistFile ps file.1 (hashFn file.2) (langFn file.1)
        file.2.utf8ByteSize chunks vecs := by
  unfold fileStages
  rw [if_neg h, hc]
  dsimp only
  rw [if_neg hlen, if_neg hflag, he]

/-- After a stage step, the embed-abort flag is either unchanged, or was
newly raised — in which case the store was untouched and the file's hash
had not matched. -/
theorem fileStages_embedErr_after (hashFn langFn : String → String)
    (chunkFn : String → String → Except String (List RawChunk))
    (embedFn : List String → Except String (List (List Float)))
    (ps : PipeState) (file : String × String) :
    (fileStages hashFn langFn chunkFn embedFn ps file).embedErr =
      ps.embedErr ∨
    ((fileStages hashFn langFn chunkFn embedFn ps file).st = ps.st ∧
     GetFileHash ps.st file.1 ≠ hashFn file.2 ∧
     (fileStages hashFn langFn chunkFn embedFn ps file).embedErr.isSome
       = true) := by
  by_cases h1 : GetFileHash ps.st file.1 = hashFn file.2
  · rw [fileStages_skip hashFn langFn chunkFn embedFn ps file h1]
    exact Or.inl rfl
  cases hc : chunkFn file.1 file.2 with
  | error e =>
    rw [fileStages_chunkErr hashFn langFn chunkFn embedFn ps file e h1 hc]
    exact Or.inl rfl
  | ok chunks =>
    by_cases hlen : chunks.length = 0
    · rw [fileStages_zero hashFn langFn chunkFn embedFn ps file chunks
        h1 hc hlen]
      exact Or.inl rfl
    by_cases hflag : ps.embedErr.isSome = true
    · rw [fileStages_flagSkip hashFn langFn chunkFn embedFn ps file chunks
        h1 hc hlen hflag]
      exact Or.inl rfl
    cases he : embedAllFile embedFn (chunks.map (fun c => c.content)) with
    | error e =>
      rw [fileStages_embedError hashFn langFn chunkFn embedFn ps file chunks
        e h1 hc hlen hflag he]
      exact Or.inr ⟨rfl, h1, by simp⟩
    | ok vecs =>
      rw [fileStages_persist hashFn langFn chunkFn embedFn ps file chunks
        vecs h1 hc hlen hflag he]
      exact Or.inl (persistFile_counts ps file.1 (hashFn file.2)
        (langFn file.1) file.2.utf8ByteSize chunks vecs).2.2.1

/-- A stage step leaves every other path's stored hash unchanged. -/
theorem fileStages_hash_other (hashFn langFn : String → String)
    (chunkFn : String → String → Except String (List RawChunk))
    (embedFn : List String → Except String (List (List Float)))
    (ps : PipeState) (file : String × String) (p : String)
    (hne : p ≠ file.1) :
    GetFileHash (fileStages hashFn langFn chunkFn embedFn ps file).st p =
      GetFileHash ps.st p := by
  by_cases h1 : GetFileHash ps.st file.1 = hashFn file.2
  · rw [fileStages_skip hashFn langFn chunkFn embedFn ps file h1]
  cases hc : chunkFn file.1 file.2 with
  | error e =>
    rw [fileStages_chunkErr hashFn langFn chunkFn embedFn ps file e h1 hc]
  | ok chunks =>
    by_cases hlen : chunks.length = 0
    · rw [fileStages_zero hashFn langFn chunkFn embedFn ps file chunks
        h1 hc hlen]
    by_cases hflag : ps.embedErr.isSome = true
    · rw [fileStages_flagSkip hashFn langFn chunkFn embedFn ps file chunks
        h1 hc hlen hflag]
    cases he : embedAllFile embedFn (chunks.map (fun c => c.content)) with
    | error e =>
      rw [fileStages_embedError hashFn langFn chunkFn embedFn ps file chunks
        e h1 hc hlen hflag he]
    | ok vecs =>
      rw [fileStages_persist hashFn langFn chunkFn embedFn ps file chunks
        vecs h1 hc hlen hflag he]
      exact persistFile_hash_other ps file.1 (hashFn file.2) (langFn file.1)
        file.2.utf8ByteSize chunks vecs p hne

/-- Walking a list of files whose paths all differ from `p` leaves `p`'s
stored hash unchanged. -/
theorem foldl_hash_frame (hashFn langFn : String → String)
    (chunkFn : String → String → Except String (List RawChunk))
    (embedFn : List String → Except String (List (List Float)))
    (files : List (String × String)) (p : String) :
    ∀ ps : PipeState, (∀ g ∈ files, p ≠ g.1) →
      GetFileHash ((files.foldl (processFile hashFn langFn chunkFn embedFn)
        ps)).st p = GetFileHash ps.st p := by
  induction files with
  | nil => intro ps _; rfl
  | cons f rest ih =>
    intro ps hall
    rw [List.foldl_cons]
    rw [ih (processFile hashFn langFn chunkFn embedFn ps f)
      (fun g hg => hall g (List.mem_cons_of_mem _ hg))]
    exact fileStages_hash_other hashFn langFn chunkFn embedFn
      { ps with filesTotal := ps.filesTotal + 1 } f p
      (hall f (List.mem_cons_self _ _))

/-- Run-1 dichotomy: after one step on `f`, either `f`'s stored hash
equals its computed hash, or it still differs and the step dropped the
file before the persist stage (dead stage, chunker error, zero chunks, or
an embedding error on this very file). -/
theorem step_run1_cases (hashFn langFn : String → String)
    (chunkFn : String → String → Except String (List RawChunk))
    (embedFn : List String → Except String (List (List Float)))
    (ps1 : PipeState) (f : String × String) :
    GetFileHash (processFile hashFn langFn chunkFn embedFn ps1 f).st f.1 =
      hashFn f.2 ∨
    (GetFileHash (processFile hashFn langFn chunkFn embedFn ps1 f).st f.1 ≠
        hashFn f.2 ∧
     GetFileHash ps1.st f.1 ≠ hashFn f.2 ∧
     (ps1.embedErr.isSome = true ∨
      (∃ e, chunkFn f.1 f.2 = .error e) ∨
      (∃ chunks, chunkFn f.1 f.2 = .ok chunks ∧ chunks.length = 0) ∨
      (∃ chunks e, chunkFn f.1 f.2 = .ok chunks ∧ ¬ chunks.length = 0 ∧
        embedAllFile embedFn (chunks.map (fun c => c.content)) =
          .error e))) := by
  have hcast : processFile hashFn langFn chunkFn embedFn ps1 f =
      fileStages hashFn langFn chunkFn embedFn
        { ps1 with filesTotal := ps1.filesTotal + 1 } f := rfl
  by_cases h1 : GetFileHash ps1.st f.1 = hashFn f.2
  · left
    rw [hcast, fileStages_skip hashFn langFn chunkFn embedFn
      { ps1 with filesTotal := ps1.filesTotal + 1 } f h1]
    exact h1
  cases hc : chunkFn f.1 f.2 with
  | error e =>
    right
    rw [hcast, fileStages_chunkErr hashFn langFn chunkFn embedFn
      { ps1 with filesTotal := ps1.filesTotal + 1 } f e h1 hc]
    exact ⟨h1, h1, Or.inr (Or.inl ⟨e, rfl⟩)⟩
  | ok chunks =>
    by_cases hlen : chunks.length = 0
    · right
      rw [hcast, fileStages_zero hashFn langFn chunkFn embedFn
        { ps1 with filesTotal := ps1.filesTotal + 1 } f chunks h1 hc hlen]
      exact ⟨h1, h1, Or.inr (Or.inr (Or.inl ⟨chunks, rfl, hlen⟩))⟩
    by_cases hflag : ps1.embedErr.isSome = true
    · right
      rw [hcast, fileStages_flagSkip hashFn langFn chunkFn embedFn
        { ps1 with filesTotal := ps1.filesTotal + 1 } f chunks h1 hc hlen hflag]
      exact ⟨h1, h1, Or.inl hflag⟩
    cases he : embedAllFile embedFn (chunks.map (fun c => c.content)) with
    | error e =>
      right
      rw [hcast, fileStages_embedError hashFn langFn chunkFn embedFn
        { ps1 with filesTotal := ps1.filesTotal + 1 } f chunks e h1 hc hlen hflag he]
      exact ⟨h1, h1, Or.inr (Or.inr (Or.inr ⟨chunks, e, rfl, hlen, he⟩))⟩
    | ok vecs =>
      left
      rw [hcast, fileStages_persist hashFn langFn chunkFn embedFn
        { ps1 with filesTotal := ps1.filesTotal + 1 } f chunks vecs h1 hc hlen hflag he]
      exact persistFile_hash_self { ps1 with filesTotal := ps1.filesTotal + 1 } f.1 (hashFn f.2) (langFn f.1)
        f.2.utf8ByteSize chunks vecs

/-- Re-run step: if run 2's store already records, for `f`'s path, the
hash run 1 left there, then stepping run 2 on `f` mutates nothing and
counts nothing, and run 2's embed-abort flag keeps dominating run 1's. -/
theorem step_rerun (hashFn langFn : String → String)
    (chunkFn : String → String → Except String (List RawChunk))
    (embedFn : List String → Except String (List (List Float)))
    (ps1 ps2 : PipeState) (f : String × String)
    (hfh : GetFileHash ps2.st f.1 =
      GetFileHash (processFile hashFn langFn chunkFn embedFn ps1 f).st f.1)
    (hmono : ps1.embedErr.isSome = true → ps2.embedErr.isSome = true) :
    (processFile hashFn langFn chunkFn embedFn ps2 f).st = ps2.st ∧
    (processFile hashFn langFn chunkFn embedFn ps2 f).filesIndexed =
      ps2.filesIndexed ∧
    (processFile hashFn langFn chunkFn embedFn ps2 f).chunksTotal =
      ps2.chunksTotal ∧
    ((processFile hashFn langFn chunkFn embedFn ps1 f).embedErr.isSome =
        true →
      (processFile hashFn langFn chunkFn embedFn ps2 f).embedErr.isSome =
        true) := by
  have hcast1 : processFile hashFn langFn chunkFn embedFn ps1 f =
      fileStages hashFn langFn chunkFn embedFn
        { ps1 with filesTotal := ps1.filesTotal + 1 } f := rfl
  have hcast2 : processFile hashFn langFn chunkFn embedFn ps2 f =
      fileStages hashFn langFn chunkFn embedFn
        { ps2 with filesTotal := ps2.filesTotal + 1 } f := rfl
  rcases step_run1_cases hashFn langFn chunkFn embedFn ps1 f with hL |
    ⟨hL1, hne1, hdisj⟩
  · -- run 2 sees the hash and skips
    have heq2 : GetFileHash ps2.st f.1 = hashFn f.2 := hfh.trans hL
    have hres2 : processFile hashFn langFn chunkFn embedFn ps2 f =
        { ps2 with filesTotal := ps2.filesTotal + 1,
                   hashSkips := ps2.hashSkips + 1 } := by
      rw [hcast2, fileStages_skip hashFn langFn chunkFn embedFn
        { ps2 with filesTotal := ps2.filesTotal + 1 } f heq2]
    refine ⟨by rw [hres2], by rw [hres2], by rw [hres2], ?_⟩
    intro hp
    rw [hres2]
    show ps2.embedErr.isSome = true
    rcases fileStages_embedErr_after hashFn langFn chunkFn embedFn
      { ps1 with filesTotal := ps1.filesTotal + 1 } f with hsame |
      ⟨hst, hneq, _⟩
    · apply hmono
      rw [hcast1, hsame] at hp
      exact hp
    · exfalso
      apply hneq
      show GetFileHash ps1.st f.1 = hashFn f.2
      rw [hcast1] at hL
      calc GetFileHash ps1.st f.1
          = GetFileHash (fileStages hashFn langFn chunkFn embedFn
              { ps1 with filesTotal := ps1.filesTotal + 1 } f).st f.1 := by
            rw [hst]
        _ = hashFn f.2 := hL
  · -- run 2 still sees a mismatch; run 1 dropped the file pre-persist
    have hne2 : GetFileHash ps2.st f.1 ≠ hashFn f.2 := by
      rw [hfh]
      exact hL1
    cases hc : chunkFn f.1 f.2 with
    | error e =>
      have hres2 : processFile hashFn langFn chunkFn embedFn ps2 f =
          { ps2 with filesTotal := ps2.filesTotal + 1 } := by
        rw [hcast2, fileStages_chunkErr hashFn langFn chunkFn embedFn
          { ps2 with filesTotal := ps2.filesTotal + 1 } f e hne2 hc]
      have hres1 : processFile hashFn langFn chunkFn embedFn ps1 f =
          { ps1 with filesTotal := ps1.filesTotal + 1 } := by
        rw [hcast1, fileStages_chunkErr hashFn langFn chunkFn embedFn
          { ps1 with filesTotal := ps1.filesTotal + 1 } f e hne1 hc]
      refine ⟨by rw [hres2], by rw [hres2], by rw [hres2], ?_⟩
      intro hp
      rw [hres1] at hp
      rw [hres2]
      exact hmono hp
    | ok chunks =>
      by_cases hlen : chunks.length = 0
      · have hres2 : processFile hashFn langFn chunkFn embedFn ps2 f =
            { ps2 with filesTotal := ps2.filesTotal + 1 } := by
          rw [hcast2, fileStages_zero hashFn langFn chunkFn embedFn
            { ps2 with filesTotal := ps2.filesTotal + 1 } f chunks hne2 hc hlen]
        have hres1 : processFile hashFn langFn chunkFn embedFn ps1 f =
            { ps1 with filesTotal := ps1.filesTotal + 1 } := by
          rw [hcast1, fileStages_zero hashFn langFn chunkFn embedFn
            { ps1 with filesTotal := ps1.filesTotal + 1 } f chunks hne1 hc hlen]
        refine ⟨by rw [hres2], by rw [hres2], by rw [hres2], ?_⟩
        intro hp
        rw [hres1] at hp
        rw [hres2]
        exact hmono hp
      · by_cases hflag2 : ps2.embedErr.isSome = true
        · have hres2 : processFile hashFn langFn chunkFn embedFn ps2 f =
              { ps2 with filesTotal := ps2.filesTotal + 1 } := by
            rw [hcast2, fileStages_flagSkip hashFn langFn chunkFn embedFn
              { ps2 with filesTotal := ps2.filesTotal + 1 } f chunks hne2 hc hlen hflag2]
          exact ⟨by rw [hres2], by rw [hres2], by rw [hres2],
            fun _ => by rw [hres2]; exact hflag2⟩
        · cases he : embedAllFile embedFn (chunks.map (fun c => c.content))
            with
          | error e =>
            have hres2 : processFile hashFn langFn chunkFn embedFn ps2 f =
                { ps2 with filesTotal := ps2.filesTotal + 1,
                           embedErr := some e } := by
              rw [hcast2, fileStages_embedError hashFn langFn chunkFn embedFn
                { ps2 with filesTotal := ps2.filesTotal + 1 } f chunks e hne2 hc hlen hflag2 he]
            exact ⟨by rw [hres2], by rw [hres2], by rw [hres2],
              fun _ => by rw [hres2]; simp⟩
          | ok vecs =>
            exfalso
            rcases hdisj with hflag1 | ⟨e, hce⟩ | ⟨chunks', hc', hlen'⟩ |
              ⟨chunks', e, hc', hlen', he'⟩
            · exact hflag2 (hmono hflag1)
            · rw [hc] at hce
              exact absurd hce (by simp)
            · rw [hc] at hc'
              rw [Except.ok.injEq] at hc'
              exact hlen (hc' ▸ hlen')
            · rw [hc] at hc'
              rw [Except.ok.injEq] at hc'
              subst hc'
              rw [he] at he'
              exact absurd he' (by simp)

/-- Re-running the pipeline over the same files from the store the first
run produced changes nothing: the store stays fixed and nothing is indexed
or counted, as long as the walked paths are distinct (the walker emits
each path at most once). -/
theorem rerun_invariant (hashFn langFn : String → String)
    (chunkFn : String → String → Except String (List RawChunk))
    (embedFn : List String → Except String (List (List Float))) :
    ∀ (files : List (String × String)) (ps1 ps2 : PipeState),
      (files.map Prod.fst).Nodup →
      ps2.st = (files.foldl (processFile hashFn langFn chunkFn embedFn)
        ps1).st →
      (ps1.embedErr.isSome = true → ps2.embedErr.isSome = true) →
      (files.foldl (processFile hashFn langFn chunkFn embedFn) ps2).st =
        ps2.st ∧
      (files.foldl (processFile hashFn langFn chunkFn embedFn)
        ps2).filesIndexed = ps2.filesIndexed ∧
      (files.foldl (processFile hashFn langFn chunkFn embedFn)
        ps2).chunksTotal = ps2.chunksTotal := by
  intro files
  induction files with
  | nil =>
    intro ps1 ps2 _ _ _
    exact ⟨rfl, rfl, rfl⟩
  | cons f rest ih =>
    intro ps1 ps2 hnd hst hmono
    rw [List.foldl_cons] at hst ⊢
    rw [List.map_cons, List.nodup_cons] at hnd
    have hnotin : ∀ g ∈ rest, f.1 ≠ g.1 := by
      intro g hg heq
      exact hnd.1 (List.mem_map.2 ⟨g, hg, heq.symm⟩)
    have hfh : GetFileHash ps2.st f.1 =
        GetFileHash (processFile hashFn langFn chunkFn embedFn ps1 f).st
          f.1 := by
      rw [hst]
      exact foldl_hash_frame hashFn langFn chunkFn embedFn rest f.1
        (processFile hashFn langFn chunkFn embedFn ps1 f) hnotin
    rcases step_rerun hashFn langFn chunkFn embedFn ps1 ps2 f hfh hmono with
      ⟨hA, hB, hC, hD⟩
    have hst' : (processFile hashFn langFn chunkFn embedFn ps2 f).st =
        (rest.foldl (processFile hashFn langFn chunkFn embedFn)
          (processFile hashFn langFn chunkFn embedFn ps1 f)).st := by
      rw [hA, hst]
    rcases ih (processFile hashFn langFn chunkFn embedFn ps1 f)
      (processFile hashFn langFn chunkFn embedFn ps2 f) hnd.2 hst' hD with
      ⟨h1, h2, h3⟩
    exact ⟨h1.trans hA, h2.trans hB, h3.trans hC⟩

/-- C7: indexing the same file tree twice with no changes in between
leaves the store of the second run identical to the store of the first —
in particular the file, chunk and embedding counts are identical — and the
second run's stats report `files_indexed = 0` (every file either still
matches its stored SHA-256 and is dropped at the hash stage, or is dropped
at the same pre-persist stage as in the first run).  The hypothesis is
that the walked paths are pairwise distinct, which holds of any real
directory walk. -/
theorem runPipeline_idempotent (hashFn langFn : String → String)
    (chunkFn : String → String → Except String (List RawChunk))
    (embedFn : List String → Except String (List (List Float)))
    (files : List (String × String)) (st0 : StoreState)
    (hnd : (files.map Prod.fst).Nodup) :
    (runPipeline hashFn langFn chunkFn embedFn files
        (runPipeline hashFn langFn chunkFn embedFn files st0).2.st).2.st =
      (runPipeline hashFn langFn chunkFn embedFn files st0).2.st ∧
    (runPipeline hashFn langFn chunkFn embedFn files
        (runPipeline hashFn langFn chunkFn embedFn files st0).2.st).1.filesIndexed
      = 0 ∧
    (runPipeline hashFn langFn chunkFn embedFn files
        (runPipeline hashFn langFn chunkFn embedFn files st0).2.st).1.chunksTotal
      = 0 := by
  have hinv := rerun_invariant hashFn langFn chunkFn embedFn files
    ⟨st0, 0, 0, 0, none, none, 0⟩
    ⟨(runPipeline hashFn langFn chunkFn embedFn files st0).2.st,
      0, 0, 0, none, none, 0⟩
    hnd rfl (fun h => by simp at h)
  exact ⟨hinv.1, hinv.2.1, hinv.2.2⟩

/-- Witness for C7: a concrete one-file tree with pairwise distinct paths. -/
theorem runPipeline_idempotent_witness :
    ((([("a.go", "package a")] : List (String × String)).map Prod.fst).Nodup)
      ∧
    ((runPipeline (fun s => s) (fun _ => "go") (fun _ _ => .ok [])
        (fun _ => .ok []) [("a.go", "package a")]
        (runPipeline (fun s => s) (fun _ => "go") (fun _ _ => .ok [])
          (fun _ => .ok []) [("a.go", "package a")] emptyStore).2.st).2.st =
      (runPipeline (fun s => s) (fun _ => "go") (fun _ _ => .ok [])
        (fun _ => .ok []) [("a.go", "package a")] emptyStore).2.st ∧
    (runPipeline (fun s => s) (fun _ => "go") (fun _ _ => .ok [])
        (fun _ => .ok []) [("a.go", "package a")]
        (runPipeline (fun s => s) (fun _ => "go") (fun _ _ => .ok [])
          (fun _ => .ok []) [("a.go", "package a")]
          emptyStore).2.st).1.filesIndexed = 0 ∧
    (runPipeline (fun s => s) (fun _ => "go") (fun _ _ => .ok [])
        (fun _ => .ok []) [("a.go", "package a")]
        (runPipeline (fun s => s) (fun _ => "go") (fun _ _ => .ok [])
          (fun _ => .ok []) [("a.go", "package a")]
          emptyStore).2.st).1.chunksTotal = 0) :=
  ⟨by decide,
   runPipeline_idempotent (fun s => s) (fun _ => "go") (fun _ _ => .ok [])
     (fun _ => .ok []) [("a.go", "package a")] emptyStore (by decide)⟩
